import Mathlib

/-
Shallow embedding of the capone trust and session substrate:
the capability subsystem (src/lib/caps.c), the session registry
(the sessions translation unit), the server-side session handler
(src/lib/proto.c) and the framed encrypted channel (the sd channel
translation unit).

Byte strings are `List Nat` with entries below 256; C strings are
`List Nat` of ASCII codes.  The external libsodium primitives
(BLAKE2b hashing, XSalsa20-Poly1305 secretbox, X25519) are either
taken as function parameters or modelled as ideal functional
primitives, since they are third-party code outside this repository.
-/

/-- 32-bit big-endian encoding of a `uint32`, as produced by `htonl`
inside `hash` (src/lib/caps.c) and by the length prefix of the framed
channel. -/
def be32 (n : Nat) : List Nat :=
  [n / 2 ^ 24 % 256, n / 2 ^ 16 % 256, n / 2 ^ 8 % 256, n % 256]

/-- Decode a 4-byte big-endian length, as done by `ntohl` in
`sd_channel_receive_data`. -/
def be32dec (l : List Nat) : Nat :=
  match l with
  | [a, b, c, d] => a * 2 ^ 24 + b * 2 ^ 16 + c * 2 ^ 8 + d
  | _ => 0

/-- The byte sequence fed to `crypto_generichash` by `hash` in
src/lib/caps.c: the identity key bytes first, then the big-endian
rights, then the parent secret — the order of the three
`crypto_generichash_update` calls. -/
def capHashInput (rights : Nat) (secret : List Nat) (key : List Nat) : List Nat :=
  key ++ be32 rights ++ secret

/-- The hash-input ordering in the words of the spec (§4.4): parent
secret first, then big-endian rights, then identity.  Declared only to
be compared against `capHashInput`, the ordering of the source. -/
def specCapHashInput (rights : Nat) (secret : List Nat) (key : List Nat) : List Nat :=
  secret ++ be32 rights ++ key

/-- `hash` from src/lib/caps.c, parameterised by the 32-byte-output
hash function `H` (libsodium `crypto_generichash`, external code). -/
def capHash (H : List Nat → List Nat) (rights : Nat) (secret : List Nat)
    (key : List Nat) : List Nat :=
  H (capHashInput rights secret key)

/-- Modelled from the spec: `CPN_CAP_RIGHT_EXEC` of include/capone/caps.h
(the header is not among the sources); rights are a bitmask over EXEC
and TERM. -/
def CPN_CAP_RIGHT_EXEC : Nat := 1

/-- Modelled from the spec: `CPN_CAP_RIGHT_TERM` of include/capone/caps.h
(the header is not among the sources). -/
def CPN_CAP_RIGHT_TERM : Nat := 2

/-- The 32-bit one-complement `~rights` used by the subset checks in
src/lib/caps.c, on a `uint32`. -/
def comp32 (n : Nat) : Nat := n ^^^ (2 ^ 32 - 1)

/-- One entry of a capability delegation chain: a 32-byte signature
public key and a rights bitmask (`struct cpn_cap::chain` element). -/
structure CapEntry where
  identity : List Nat
  rights : Nat
deriving DecidableEq

/-- `struct cpn_cap`: a 32-byte secret plus the delegation chain;
`chain_depth` is the chain length. -/
structure Cap where
  secret : List Nat
  chain : List CapEntry
deriving DecidableEq

/-- `cpn_cap_create_root` (src/lib/caps.c): the secret is drawn from the
CSPRNG, passed here as a parameter; the chain is empty. -/
def cpn_cap_create_root (secret : List Nat) : Cap :=
  ⟨secret, []⟩

/-- `cpn_cap_create_ref` (src/lib/caps.c): refuse when the parent chain
is non-empty and `rights` holds a bit the parent tail does not; then
derive the new secret with `hash` and append the chain entry. -/
def cpn_cap_create_ref (H : List Nat → List Nat) (root : Cap) (rights : Nat)
    (key : List Nat) : Option Cap :=
  match root.chain.getLast? with
  | some tail =>
      if rights &&& comp32 tail.rights ≠ 0 then none
      else some ⟨capHash H rights root.secret key, root.chain ++ [⟨key, rights⟩]⟩
  | none => some ⟨capHash H rights root.secret key, root.chain ++ [⟨key, rights⟩]⟩

/-- The chain-replay loop of `cpn_caps_verify` (src/lib/caps.c): starting
from the implicit rights `EXEC ∪ TERM` and the root secret, each entry
must not extend the rights of its predecessor, and the secret is rebuilt
with the same `hash`. -/
def replayChain (H : List Nat → List Nat) :
    List CapEntry → Nat → List Nat → Option (Nat × List Nat)
  | [], rights, secret => some (rights, secret)
  | e :: rest, rights, secret =>
      if e.rights &&& comp32 rights ≠ 0 then none
      else replayChain H rest e.rights (capHash H e.rights secret e.identity)

/-- `cpn_caps_verify` (src/lib/caps.c): an empty chain never verifies;
the tail identity must equal the presented key and the tail rights must
meet `right`; the chain then replays from the root secret, and the
reconstructed secret must equal the reference secret with
`right` a subset of the final rights. -/
def cpn_caps_verify (H : List Nat → List Nat) (ref root : Cap)
    (key : List Nat) (right : Nat) : Bool :=
  match ref.chain.getLast? with
  | none => false
  | some tail =>
      if key ≠ tail.identity then false
      else if tail.rights &&& right = 0 then false
      else
        match replayChain H ref.chain
            (CPN_CAP_RIGHT_EXEC ||| CPN_CAP_RIGHT_TERM) root.secret with
        | none => false
        | some (rights, secret) =>
            if right &&& comp32 rights ≠ 0 then false
            else secret == ref.secret

/-- The rights a `cpn_cap_create_ref` subset check measures against: the
tail entry of the chain, or the implicit `EXEC ∪ TERM` of a root. -/
def effTailRights (c : Cap) : Nat :=
  match c.chain.getLast? with
  | none => CPN_CAP_RIGHT_EXEC ||| CPN_CAP_RIGHT_TERM
  | some e => e.rights

/-- Identity of the final chain entry (`[]` for a root). -/
def tailIdentity (c : Cap) : List Nat :=
  match c.chain.getLast? with
  | none => []
  | some e => e.identity

/-- Rights of the final chain entry (`0` for a root). -/
def tailRights (c : Cap) : Nat :=
  match c.chain.getLast? with
  | none => 0
  | some e => e.rights

/-- Capabilities reachable from `root` by a sequence of
`cpn_cap_create_root` / `cpn_cap_create_ref` calls. -/
inductive capDerived (H : List Nat → List Nat) (root : Cap) : Cap → Prop
  | root : capDerived H root root
  | ref (c c₂ : Cap) (rights : Nat) (key : List Nat) :
      capDerived H root c → cpn_cap_create_ref H c rights key = some c₂ →
      capDerived H root c₂

/-- Capabilities reachable from `root` by delegations that each stay
within the effective tail rights of their parent (a root counting as
`EXEC ∪ TERM`) — delegation sequences the spec considers well-formed. -/
inductive capDerivedValid (H : List Nat → List Nat) (root : Cap) : Cap → Prop
  | root : capDerivedValid H root root
  | ref (c c₂ : Cap) (rights : Nat) (key : List Nat) :
      capDerivedValid H root c →
      rights &&& effTailRights c = rights →
      cpn_cap_create_ref H c rights key = some c₂ →
      capDerivedValid H root c₂

section BitLemmas

theorem and_comp32_eq_zero_of_subset {r t : Nat} (ht : t < 2 ^ 32)
    (hsub : r &&& t = r) : r &&& comp32 t = 0 := by
  have hr : r < 2 ^ 32 := lt_of_le_of_lt (hsub ▸ Nat.and_le_right) ht
  apply Nat.eq_of_testBit_eq
  intro i
  simp only [Nat.testBit_and, Nat.zero_testBit, comp32, Nat.testBit_xor,
    Nat.testBit_two_pow_sub_one]
  by_cases hi : i < 32
  · by_cases hrb : r.testBit i
    · have : (r &&& t).testBit i = r.testBit i := by rw [hsub]
      rw [Nat.testBit_and] at this
      rw [hrb] at this
      simp only [Bool.true_and] at this
      simp [hrb, this, hi]
    · simp [hrb]
  · have : r.testBit i = false :=
      Nat.testBit_eq_false_of_lt (lt_of_lt_of_le hr (Nat.pow_le_pow_right (by omega) (by omega)))
    simp [this]

theorem subset_of_and_comp32_eq_zero {r t : Nat} (hr : r < 2 ^ 32)
    (h : r &&& comp32 t = 0) : r &&& t = r := by
  apply Nat.eq_of_testBit_eq
  intro i
  simp only [Nat.testBit_and]
  by_cases hrb : r.testBit i
  · have hi : i < 32 := by
      by_contra hc
      have : r.testBit i = false :=
        Nat.testBit_eq_false_of_lt
          (lt_of_lt_of_le hr (Nat.pow_le_pow_right (by omega) (by omega)))
      rw [this] at hrb
      exact Bool.false_ne_true hrb
    have hz : (r &&& comp32 t).testBit i = false := by rw [h]; exact Nat.zero_testBit i
    rw [Nat.testBit_and] at hz
    simp only [comp32, Nat.testBit_xor, Nat.testBit_two_pow_sub_one] at hz
    rw [hrb] at hz
    simp only [Bool.true_and, decide_eq_true hi] at hz
    rcases Bool.eq_false_or_eq_true (t.testBit i) with htb | htb
    · simp [hrb, htb]
    · rw [htb] at hz
      simp only [Bool.false_xor] at hz
      exact absurd hz (by simp)
  · simp [hrb]

end BitLemmas

theorem cpn_cap_create_ref_some {H : List Nat → List Nat} {root : Cap}
    {rights : Nat} {key : List Nat} {c₂ : Cap}
    (h : cpn_cap_create_ref H root rights key = some c₂) :
    c₂ = ⟨capHash H rights root.secret key, root.chain ++ [⟨key, rights⟩]⟩ := by
  unfold cpn_cap_create_ref at h
  split at h
  · split at h
    · exact absurd h (by simp)
    · exact (Option.some.inj h).symm
  · exact (Option.some.inj h).symm

theorem replayChain_append (H : List Nat → List Nat) (l : List CapEntry)
    (e : CapEntry) :
    ∀ (r : Nat) (s : List Nat),
    replayChain H (l ++ [e]) r s =
      match replayChain H l r s with
      | none => none
      | some (r₂, s₂) =>
          if e.rights &&& comp32 r₂ ≠ 0 then none
          else some (e.rights, capHash H e.rights s₂ e.identity) := by
  induction l with
  | nil =>
    intro r s
    rfl
  | cons f l ih =>
    intro r s
    rw [List.cons_append]
    simp only [replayChain]
    by_cases hf : f.rights &&& comp32 r ≠ 0
    · rw [if_pos hf, if_pos hf]
    · rw [if_neg hf, if_neg hf]
      exact ih _ _

theorem capDerivedValid_replay {H : List Nat → List Nat} {root c : Cap}
    (hroot : root.chain = []) (h : capDerivedValid H root c) :
    replayChain H c.chain (CPN_CAP_RIGHT_EXEC ||| CPN_CAP_RIGHT_TERM) root.secret
        = some (effTailRights c, c.secret)
      ∧ effTailRights c < 2 ^ 32 := by
  induction h with
  | root =>
    have he : effTailRights root = CPN_CAP_RIGHT_EXEC ||| CPN_CAP_RIGHT_TERM := by
      unfold effTailRights
      rw [hroot]
      rfl
    constructor
    · rw [hroot, he]
      rfl
    · rw [he]
      decide
  | ref c c₂ rights key hder hsub hcreate ih =>
    obtain ⟨hrep, hlt⟩ := ih
    have hc₂ := cpn_cap_create_ref_some hcreate
    have hzero : rights &&& comp32 (effTailRights c) = 0 :=
      and_comp32_eq_zero_of_subset hlt hsub
    have hrlt : rights < 2 ^ 32 :=
      lt_of_le_of_lt (hsub ▸ Nat.and_le_right) hlt
    subst hc₂
    constructor
    · rw [replayChain_append, hrep]
      simp only [hzero]
      simp [effTailRights, List.getLast?_concat, capHash]
    · simpa [effTailRights, List.getLast?_concat] using hrlt

theorem cpn_caps_verify_eq_of_getLast {H : List Nat → List Nat}
    {ref root : Cap} {key : List Nat} {right : Nat} {e : CapEntry}
    (he : ref.chain.getLast? = some e) :
    cpn_caps_verify H ref root key right =
      (if key ≠ e.identity then false
       else if e.rights &&& right = 0 then false
       else
         match replayChain H ref.chain
             (CPN_CAP_RIGHT_EXEC ||| CPN_CAP_RIGHT_TERM) root.secret with
         | none => false
         | some (rights, secret) =>
             if right &&& comp32 rights ≠ 0 then false
             else secret == ref.secret) := by
  unfold cpn_caps_verify
  rw [he]

/-- C2 (amended): for a capability obtained from a root by a sequence of
`cpn_cap_create_root` / `cpn_cap_create_ref` calls in which every
delegation stays within its parent effective tail rights, and for every
nonzero 32-bit right `r`, `cpn_caps_verify` succeeds on the tail identity
exactly when `r` is a subset of the rights of the final chain entry. -/
theorem cpn_caps_verify_iff_subset {H : List Nat → List Nat} {root c : Cap}
    (r : Nat) (hroot : root.chain = []) (hder : capDerivedValid H root c)
    (hne : c.chain ≠ []) (hr32 : r < 2 ^ 32) (hr0 : r ≠ 0) :
    cpn_caps_verify H c root (tailIdentity c) r = true ↔ r &&& tailRights c = r := by
  obtain ⟨e, he⟩ : ∃ e, c.chain.getLast? = some e := by
    cases hl : c.chain.getLast? with
    | none => exact absurd (List.getLast?_eq_none_iff.mp hl) hne
    | some e => exact ⟨e, rfl⟩
  have hrep := capDerivedValid_replay hroot hder
  have heff : effTailRights c = e.rights := by
    unfold effTailRights
    rw [he]
  have hti : tailIdentity c = e.identity := by
    unfold tailIdentity
    rw [he]
  have htr : tailRights c = e.rights := by
    unfold tailRights
    rw [he]
  rw [heff] at hrep
  rw [cpn_caps_verify_eq_of_getLast he, hti, htr, hrep.1]
  rw [if_neg (fun hh => hh rfl)]
  simp only []
  constructor
  · intro hv
    by_cases h1 : e.rights &&& r = 0
    · rw [if_pos h1] at hv
      exact absurd hv (by simp)
    · rw [if_neg h1] at hv
      by_cases h2 : r &&& comp32 e.rights ≠ 0
      · rw [if_pos h2] at hv
        exact absurd hv (by simp)
      · exact subset_of_and_comp32_eq_zero hr32 (not_not.mp h2)
  · intro hsub
    have h1 : ¬(e.rights &&& r = 0) := by
      rw [Nat.and_comm, hsub]
      exact hr0
    have h2 : ¬(r &&& comp32 e.rights ≠ 0) :=
      not_not_intro (and_comp32_eq_zero_of_subset hrep.2 hsub)
    rw [if_neg h1, if_neg h2]
    simp

/-- A fixed stand-in for the external BLAKE2b-style hash, used to
instantiate theorems at concrete inputs. -/
def H₀ : List Nat → List Nat := fun _ => List.replicate 32 0

/-- A concrete all-zero 32-byte identity key. -/
def zeroKey : List Nat := List.replicate 32 0

/-- A concrete root capability with an all-zero secret. -/
def rootCap0 : Cap := ⟨List.replicate 32 0, []⟩

/-- The reference capability `cpn_cap_create_ref` builds from `rootCap0`
with rights `EXEC ∪ TERM` for `zeroKey`, under `H₀`. -/
def refCap1 : Cap :=
  ⟨H₀ (capHashInput (CPN_CAP_RIGHT_EXEC ||| CPN_CAP_RIGHT_TERM) rootCap0.secret zeroKey),
    [⟨zeroKey, CPN_CAP_RIGHT_EXEC ||| CPN_CAP_RIGHT_TERM⟩]⟩

theorem cpn_caps_verify_iff_subset_witness :
    refCap1.chain ≠ [] ∧
    cpn_caps_verify H₀ refCap1 rootCap0 (tailIdentity refCap1) CPN_CAP_RIGHT_EXEC = true := by
  have hder : capDerivedValid H₀ rootCap0 refCap1 :=
    capDerivedValid.ref rootCap0 refCap1 (CPN_CAP_RIGHT_EXEC ||| CPN_CAP_RIGHT_TERM) zeroKey
      capDerivedValid.root (by decide) (by decide)
  refine ⟨by decide, ?_⟩
  exact (cpn_caps_verify_iff_subset CPN_CAP_RIGHT_EXEC rfl hder (by decide)
    (by decide) (by decide)).mpr (by decide)

/-- C2 counterexample: with the zero right, `0` is a subset of the tail
rights, yet `cpn_caps_verify` fails, because the code requires
`tail.rights & right` to be nonzero; the claimed equivalence is false
for `r = 0`. -/
theorem cpn_caps_verify_zero_right_counterexample :
    ¬(cpn_caps_verify H₀ refCap1 rootCap0 (tailIdentity refCap1) 0 = true
        ↔ 0 &&& tailRights refCap1 = 0) := by
  decide

/-- C1 (amended): the delegated secret computed by `cpn_cap_create_ref`
is `H(identity.bytes || be32(rights) || parent.secret)` — the identity
first, then the big-endian rights, then the parent secret — and the
replay loop of `cpn_caps_verify` rebuilds each link with the same
ordering. -/
theorem cap_hash_input_ordering {H : List Nat → List Nat} {root : Cap}
    {rights : Nat} {key : List Nat} {c₂ : Cap}
    (h : cpn_cap_create_ref H root rights key = some c₂) :
    c₂.secret = H (key ++ be32 rights ++ root.secret)
      ∧ ∀ (e : CapEntry) (rest : List CapEntry) (r : Nat) (s : List Nat),
          e.rights &&& comp32 r = 0 →
          replayChain H (e :: rest) r s
            = replayChain H rest e.rights (H (e.identity ++ be32 e.rights ++ s)) := by
  constructor
  · rw [cpn_cap_create_ref_some h]
    rfl
  · intro e rest r s hz
    simp only [replayChain]
    rw [if_neg (not_not_intro hz)]
    rfl

theorem cap_hash_input_ordering_witness :
    cpn_cap_create_ref H₀ rootCap0 (CPN_CAP_RIGHT_EXEC ||| CPN_CAP_RIGHT_TERM) zeroKey
        = some refCap1
      ∧ refCap1.secret
        = H₀ (zeroKey ++ be32 (CPN_CAP_RIGHT_EXEC ||| CPN_CAP_RIGHT_TERM) ++ rootCap0.secret) :=
  ⟨by decide, (cap_hash_input_ordering (by decide)).1⟩

/-- C1 counterexample: the hash input built by the code differs from the
spec ordering `parent.secret || be32(rights) || identity` at a concrete
secret and identity. -/
theorem cap_hash_input_order_counterexample :
    capHashInput (CPN_CAP_RIGHT_EXEC ||| CPN_CAP_RIGHT_TERM)
        (List.replicate 32 0) (List.replicate 32 1)
      ≠ specCapHashInput (CPN_CAP_RIGHT_EXEC ||| CPN_CAP_RIGHT_TERM)
        (List.replicate 32 0) (List.replicate 32 1) := by
  decide

/-- C8 (amended): `cpn_cap_create_ref` enforces the subset requirement
only when the parent chain is non-empty: with a chain tail it succeeds
exactly when `rights` is a subset of the tail rights, while for a root
parent it succeeds for every rights value. -/
theorem cpn_cap_create_ref_guard {H : List Nat → List Nat} (parent : Cap)
    (rights : Nat) (key : List Nat) (h32 : rights < 2 ^ 32) :
    (parent.chain = [] → (cpn_cap_create_ref H parent rights key).isSome = true)
      ∧ (∀ e, parent.chain.getLast? = some e → e.rights < 2 ^ 32 →
          ((cpn_cap_create_ref H parent rights key).isSome = true
            ↔ rights &&& e.rights = rights)) := by
  constructor
  · intro hnil
    unfold cpn_cap_create_ref
    rw [hnil]
    rfl
  · intro e he he32
    unfold cpn_cap_create_ref
    rw [he]
    simp only [Option.isSome]
    constructor
    · intro hs
      by_cases hc : rights &&& comp32 e.rights ≠ 0
      · rw [if_pos hc] at hs
        exact absurd hs (by simp)
      · exact subset_of_and_comp32_eq_zero h32 (not_not.mp hc)
    · intro hsub
      rw [if_neg (not_not_intro (and_comp32_eq_zero_of_subset he32 hsub))]

theorem cpn_cap_create_ref_guard_witness :
    (cpn_cap_create_ref H₀ rootCap0 (CPN_CAP_RIGHT_EXEC ||| CPN_CAP_RIGHT_TERM)
        zeroKey).isSome = true
      ∧ ¬((cpn_cap_create_ref H₀ refCap1 4 zeroKey).isSome = true) := by
  constructor
  · exact (cpn_cap_create_ref_guard rootCap0 (CPN_CAP_RIGHT_EXEC ||| CPN_CAP_RIGHT_TERM)
      zeroKey (by decide)).1 rfl
  · intro hs
    have := ((cpn_cap_create_ref_guard refCap1 4 zeroKey (by decide)).2
      ⟨zeroKey, CPN_CAP_RIGHT_EXEC ||| CPN_CAP_RIGHT_TERM⟩ (by decide) (by decide)).mp hs
    exact absurd this (by decide)

/-- C8 counterexample: a root parent has the implicit tail rights
`EXEC ∪ TERM`, yet `cpn_cap_create_ref` happily creates a reference with
the rights bit `4`, which is not a subset of `EXEC ∪ TERM`. -/
theorem cpn_cap_create_ref_root_unchecked_counterexample :
    cpn_cap_create_ref H₀ rootCap0 4 zeroKey ≠ none
      ∧ ¬(4 &&& (CPN_CAP_RIGHT_EXEC ||| CPN_CAP_RIGHT_TERM) = 4) := by
  decide

/-- Modelled from the spec: `CPN_CAP_SECRET_LEN` of include/capone/caps.h
(header not among the sources); the spec fixes the secret at 32 bytes. -/
def CPN_CAP_SECRET_LEN : Nat := 32

/-- Value of one hex digit as accepted by libsodium `sodium_hex2bin`:
decimal digits and both letter cases. -/
def hexDigitVal (c : Nat) : Option Nat :=
  if 48 ≤ c ∧ c ≤ 57 then some (c - 48)
  else if 97 ≤ c ∧ c ≤ 102 then some (c - 87)
  else if 65 ≤ c ∧ c ≤ 70 then some (c - 55)
  else none

/-- Hex pairs decoded into bytes, most significant digit first. -/
def parseHexPairs : List Nat → Option (List Nat)
  | [] => some []
  | a :: b :: rest =>
      match hexDigitVal a, hexDigitVal b with
      | some x, some y =>
          match parseHexPairs rest with
          | some tail => some ((16 * x + y) :: tail)
          | none => none
      | _, _ => none
  | [_] => none

/-- Modelled from the spec: `parse_hex` (lib/common.c is not among the
sources) decodes a fixed-size buffer from hex via libsodium, requiring
the hex length to be exactly twice the output length and every character
to be a hex digit. -/
def parse_hex (outlen : Nat) (s : List Nat) : Option (List Nat) :=
  if s.length = outlen * 2 then parseHexPairs s else none

/-- Lower-case hex digit character, as produced by `sodium_bin2hex`. -/
def hexDigitChar (n : Nat) : Nat :=
  if n < 10 then 48 + n else 87 + n

/-- Lower-case hex encoding of a byte string (`sodium_bin2hex`). -/
def hexEncode (l : List Nat) : List Nat :=
  (l.map (fun b => [hexDigitChar (b / 16), hexDigitChar (b % 16)])).flatten

/-- The rights-letter loop of `cpn_cap_from_string` (src/lib/caps.c):
`x` adds EXEC, `t` adds TERM, anything else is an error. -/
def parseRightsLetters : Nat → List Nat → Option Nat
  | acc, [] => some acc
  | acc, c :: rest =>
      if c = 120 then parseRightsLetters (acc ||| CPN_CAP_RIGHT_EXEC) rest
      else if c = 116 then parseRightsLetters (acc ||| CPN_CAP_RIGHT_TERM) rest
      else none

/-- The chain-entry loop of `cpn_cap_from_string` (src/lib/caps.c), run
`depth` times, `rem` starting at the first `|`: skip the `|`, scan to the
next `:` for the identity hex, collect rights letters up to the next `|`
or the end, reject empty or expanding rights. -/
def parseChainEntries : Nat → Nat → List Nat → Option (List CapEntry)
  | 0, _, _ => some []
  | depth + 1, rights, rem =>
      let rem1 := rem.drop 1
      let idPart := rem1.takeWhile (fun c => c != 58)
      let rest := rem1.dropWhile (fun c => c != 58)
      if rest.isEmpty then none
      else
        match parse_hex CPN_CAP_SECRET_LEN idPart with
        | none => none
        | some ident =>
            match parseRightsLetters 0 ((rest.drop 1).takeWhile (fun c => c != 124)) with
            | none => none
            | some r =>
                if r = 0 ∨ r &&& comp32 rights ≠ 0 then none
                else
                  match parseChainEntries depth r ((rest.drop 1).dropWhile (fun c => c != 124)) with
                  | some entries => some (⟨ident, r⟩ :: entries)
                  | none => none

/-- `cpn_cap_from_string` (src/lib/caps.c): count the `|` characters to
size the chain, parse the secret up to the first `|` (or the end), then
parse the chain entries. -/
def cpn_cap_from_string (s : List Nat) : Option Cap :=
  let chainDepth := s.count 124
  let secretPart := s.takeWhile (fun c => c != 124)
  if secretPart.length ≠ CPN_CAP_SECRET_LEN * 2 then none
  else
    match parse_hex CPN_CAP_SECRET_LEN secretPart with
    | none => none
    | some secret =>
        let rest := s.dropWhile (fun c => c != 124)
        if rest.isEmpty then some ⟨secret, []⟩
        else
          match parseChainEntries chainDepth
              (CPN_CAP_RIGHT_EXEC ||| CPN_CAP_RIGHT_TERM) rest with
          | some entries => some ⟨secret, entries⟩
          | none => none

/-- The rights letters `cpn_cap_to_string` prints for one entry. -/
def capRightsString (rights : Nat) : List Nat :=
  (if rights &&& CPN_CAP_RIGHT_EXEC ≠ 0 then [120] else [])
    ++ (if rights &&& CPN_CAP_RIGHT_TERM ≠ 0 then [116] else [])

/-- The chain loop of `cpn_cap_to_string` (src/lib/caps.c): entries with
zero rights are an error; otherwise print `|`, the identity hex, `:` and
the rights letters. -/
def capChainToString : List CapEntry → Option (List Nat)
  | [] => some []
  | e :: rest =>
      if e.rights = 0 then none
      else
        match capChainToString rest with
        | some tail =>
            some (124 :: (hexEncode e.identity ++ 58 :: (capRightsString e.rights ++ tail)))
        | none => none

/-- `cpn_cap_to_string` (src/lib/caps.c): the secret hex followed by the
chain entries. -/
def cpn_cap_to_string (cap : Cap) : Option (List Nat) :=
  match capChainToString cap.chain with
  | some tail => some (hexEncode cap.secret ++ tail)
  | none => none

/-- Chain whose entries hold 32-byte identities and nonzero rights that
never expand on the predecessor (starting from `rights`). -/
def chainValidB : Nat → List CapEntry → Bool
  | _, [] => true
  | rights, e :: rest =>
      decide (e.identity.length = CPN_CAP_SECRET_LEN)
        && e.identity.all (fun b => decide (b < 256))
        && (e.rights != 0)
        && (e.rights &&& rights == e.rights)
        && chainValidB e.rights rest

/-- A capability the string form can represent: 32-byte secret and a
valid delegation chain under the implicit root rights `EXEC ∪ TERM`. -/
def ValidCap (c : Cap) : Bool :=
  decide (c.secret.length = CPN_CAP_SECRET_LEN)
    && c.secret.all (fun b => decide (b < 256))
    && chainValidB (CPN_CAP_RIGHT_EXEC ||| CPN_CAP_RIGHT_TERM) c.chain

theorem hexDigitChar_range {n : Nat} (h : n < 16) :
    (48 ≤ hexDigitChar n ∧ hexDigitChar n ≤ 57)
      ∨ (97 ≤ hexDigitChar n ∧ hexDigitChar n ≤ 102) := by
  unfold hexDigitChar
  by_cases h10 : n < 10
  · rw [if_pos h10]
    left
    omega
  · rw [if_neg h10]
    right
    omega

theorem hexDigitVal_hexDigitChar {n : Nat} (h : n < 16) :
    hexDigitVal (hexDigitChar n) = some n := by
  interval_cases n <;> rfl

theorem hexEncode_cons (b : Nat) (l : List Nat) :
    hexEncode (b :: l)
      = hexDigitChar (b / 16) :: hexDigitChar (b % 16) :: hexEncode l := rfl

theorem hexEncode_length (l : List Nat) : (hexEncode l).length = l.length * 2 := by
  induction l with
  | nil => rfl
  | cons b l ih =>
    rw [hexEncode_cons]
    simp only [List.length_cons, ih]
    omega

theorem hexEncode_mem_range {l : List Nat} (hl : ∀ b ∈ l, b < 256) :
    ∀ c ∈ hexEncode l, (48 ≤ c ∧ c ≤ 57) ∨ (97 ≤ c ∧ c ≤ 102) := by
  induction l with
  | nil =>
    intro c hc
    exact absurd hc (by simp [hexEncode])
  | cons b l ih =>
    intro c hc
    rw [hexEncode_cons] at hc
    have hb : b < 256 := hl b (by simp)
    rcases List.mem_cons.mp hc with h1 | hc
    · exact h1 ▸ hexDigitChar_range (by omega)
    · rcases List.mem_cons.mp hc with h2 | hc
      · exact h2 ▸ hexDigitChar_range (by omega)
      · exact ih (fun x hx => hl x (List.mem_cons_of_mem b hx)) c hc

theorem parseHexPairs_hexEncode {l : List Nat} (hl : ∀ b ∈ l, b < 256) :
    parseHexPairs (hexEncode l) = some l := by
  induction l with
  | nil => rfl
  | cons b l ih =>
    rw [hexEncode_cons]
    have hb : b < 256 := hl b (by simp)
    simp only [parseHexPairs]
    rw [hexDigitVal_hexDigitChar (by omega), hexDigitVal_hexDigitChar (by omega)]
    rw [ih (fun x hx => hl x (List.mem_cons_of_mem b hx))]
    simp only [Nat.div_add_mod]

theorem parse_hex_hexEncode {l : List Nat} (hlen : l.length = CPN_CAP_SECRET_LEN)
    (hl : ∀ b ∈ l, b < 256) :
    parse_hex CPN_CAP_SECRET_LEN (hexEncode l) = some l := by
  unfold parse_hex
  rw [if_pos (by rw [hexEncode_length, hlen])]
  exact parseHexPairs_hexEncode hl

theorem takeWhile_append_all {p : Nat → Bool} {l r : List Nat}
    (h : ∀ a ∈ l, p a = true) : (l ++ r).takeWhile p = l ++ r.takeWhile p := by
  induction l with
  | nil => rfl
  | cons a l ih =>
    rw [List.cons_append, List.takeWhile_cons_of_pos (h a (by simp)), List.cons_append]
    rw [ih (fun x hx => h x (List.mem_cons_of_mem a hx))]

theorem dropWhile_append_all {p : Nat → Bool} {l r : List Nat}
    (h : ∀ a ∈ l, p a = true) : (l ++ r).dropWhile p = r.dropWhile p := by
  induction l with
  | nil => rfl
  | cons a l ih =>
    rw [List.cons_append, List.dropWhile_cons_of_pos (h a (by simp))]
    exact ih (fun x hx => h x (List.mem_cons_of_mem a hx))

theorem hexEncode_not_pipe {l : List Nat} (hl : ∀ b ∈ l, b < 256) :
    ∀ c ∈ hexEncode l, (c != 124) = true := by
  intro c hc
  rcases hexEncode_mem_range hl c hc with h | h <;> simp <;> omega

theorem hexEncode_not_colon {l : List Nat} (hl : ∀ b ∈ l, b < 256) :
    ∀ c ∈ hexEncode l, (c != 58) = true := by
  intro c hc
  rcases hexEncode_mem_range hl c hc with h | h <;> simp <;> omega

theorem hexEncode_count_pipe {l : List Nat} (hl : ∀ b ∈ l, b < 256) :
    (hexEncode l).count 124 = 0 := by
  rw [List.count_eq_zero]
  intro hmem
  have := hexEncode_not_pipe hl 124 hmem
  simp at this

theorem capRightsString_mem {r : Nat} :
    ∀ c ∈ capRightsString r, c = 120 ∨ c = 116 := by
  intro c hc
  unfold capRightsString at hc
  rcases List.mem_append.mp hc with h | h
  · left
    by_cases hx : r &&& CPN_CAP_RIGHT_EXEC ≠ 0
    · rw [if_pos hx] at h
      simpa using h
    · rw [if_neg hx] at h
      exact absurd h (by simp)
  · right
    by_cases ht : r &&& CPN_CAP_RIGHT_TERM ≠ 0
    · rw [if_pos ht] at h
      simpa using h
    · rw [if_neg ht] at h
      exact absurd h (by simp)

theorem capRightsString_not_pipe {r : Nat} :
    ∀ c ∈ capRightsString r, (c != 124) = true := by
  intro c hc
  rcases capRightsString_mem c hc with h | h <;> simp [h]

theorem capRightsString_count_pipe {r : Nat} :
    (capRightsString r).count 124 = 0 := by
  rw [List.count_eq_zero]
  intro hmem
  rcases capRightsString_mem 124 hmem with h | h <;> simp at h

theorem parseRightsLetters_capRightsString {r : Nat} (h0 : r ≠ 0) (h3 : r ≤ 3) :
    parseRightsLetters 0 (capRightsString r) = some r := by
  interval_cases r
  · exact absurd rfl h0
  · rfl
  · rfl
  · rfl

theorem capChainToString_roundtrip {chain : List CapEntry} {rights : Nat}
    (h3 : rights ≤ 3) (hv : chainValidB rights chain = true) :
    ∃ str, capChainToString chain = some str
      ∧ parseChainEntries chain.length rights str = some chain
      ∧ str.count 124 = chain.length
      ∧ str.takeWhile (fun c => c != 124) = []
      ∧ str.dropWhile (fun c => c != 124) = str := by
  induction chain generalizing rights with
  | nil => exact ⟨[], rfl, rfl, rfl, rfl, rfl⟩
  | cons e rest ih =>
    simp only [chainValidB, Bool.and_eq_true, decide_eq_true_eq, bne_iff_ne,
      beq_iff_eq] at hv
    obtain ⟨⟨⟨⟨hidlen, hidall⟩, hrne⟩, hsub⟩, hvrest⟩ := hv
    have hidbytes : ∀ b ∈ e.identity, b < 256 := by
      intro b hb
      have := List.all_eq_true.mp hidall b hb
      simpa using this
    have herle : e.rights ≤ rights := hsub ▸ Nat.and_le_right
    obtain ⟨strR, hstrR, hparseR, hcountR, htwR, hdwR⟩ :=
      ih (le_trans herle h3) hvrest
    refine ⟨124 :: (hexEncode e.identity ++ 58 :: (capRightsString e.rights ++ strR)),
      ?_, ?_, ?_, ?_, ?_⟩
    · simp only [capChainToString]
      rw [if_neg hrne, hstrR]
    · simp only [parseChainEntries, List.drop_succ_cons, List.drop_zero]
      rw [takeWhile_append_all (hexEncode_not_colon hidbytes),
        dropWhile_append_all (hexEncode_not_colon hidbytes)]
      rw [show ((58 :: (capRightsString e.rights ++ strR)).takeWhile
            (fun c => c != 58)) = [] from by simp [List.takeWhile_cons]]
      rw [List.dropWhile_cons_of_neg (by simp)]
      simp only [List.append_nil, List.isEmpty_cons, List.drop_succ_cons,
        List.drop_zero]
      rw [parse_hex_hexEncode hidlen hidbytes]
      rw [takeWhile_append_all (capRightsString_not_pipe),
        dropWhile_append_all (capRightsString_not_pipe), htwR, hdwR]
      rw [List.append_nil]
      rw [parseRightsLetters_capRightsString hrne (le_trans herle h3)]
      have hcond : ¬(e.rights = 0 ∨ e.rights &&& comp32 rights ≠ 0) := by
        push_neg
        exact ⟨hrne, and_comp32_eq_zero_of_subset
          (lt_of_le_of_lt h3 (by decide)) hsub⟩
      simp only [hparseR, if_neg hcond]
      rfl
    · rw [List.count_cons_self, List.count_append]
      rw [hexEncode_count_pipe hidbytes]
      rw [show (List.count 124 (58 :: (capRightsString e.rights ++ strR)))
            = List.count 124 (capRightsString e.rights ++ strR) from by
          simp [List.count_cons]]
      rw [List.count_append, capRightsString_count_pipe, hcountR]
      simp only [List.length_cons]
      omega
    · simp [List.takeWhile_cons]
    · exact List.dropWhile_cons_of_neg (by simp)

theorem takeWhile_all_eq_self {p : Nat → Bool} {l : List Nat}
    (h : ∀ a ∈ l, p a = true) : l.takeWhile p = l := by
  induction l with
  | nil => rfl
  | cons a rest ih =>
    rw [List.takeWhile_cons_of_pos (h a (by simp))]
    rw [ih (fun x hx => h x (List.mem_cons_of_mem a hx))]

theorem dropWhile_all_eq_nil {p : Nat → Bool} {l : List Nat}
    (h : ∀ a ∈ l, p a = true) : l.dropWhile p = [] := by
  induction l with
  | nil => rfl
  | cons a rest ih =>
    rw [List.dropWhile_cons_of_pos (h a (by simp))]
    exact ih (fun x hx => h x (List.mem_cons_of_mem a hx))

theorem takeWhile_append_nil {p : Nat → Bool} {a b : List Nat}
    (ha : a.takeWhile p = []) (hb : b.takeWhile p = []) :
    (a ++ b).takeWhile p = [] := by
  cases a with
  | nil => exact hb
  | cons x xs =>
    rw [List.cons_append]
    have hx : p x = false := by
      by_cases hpx : p x = true
      · rw [List.takeWhile_cons_of_pos hpx] at ha
        exact absurd ha (by simp)
      · exact Bool.eq_false_iff.mpr hpx
    simp [List.takeWhile_cons, hx]

theorem dropWhile_append_self {p : Nat → Bool} {a b : List Nat}
    (ha : a.takeWhile p = []) (hb : b.dropWhile p = b) :
    (a ++ b).dropWhile p = a ++ b := by
  cases a with
  | nil => exact hb
  | cons x xs =>
    rw [List.cons_append]
    have hx : p x = false := by
      by_cases hpx : p x = true
      · rw [List.takeWhile_cons_of_pos hpx] at ha
        exact absurd ha (by simp)
      · exact Bool.eq_false_iff.mpr hpx
    exact List.dropWhile_cons_of_neg (by simp [hx])

theorem parseHexPairs_bad :
    ∀ (n : Nat) (l : List Nat), l.length = n → ∀ c ∈ l,
      hexDigitVal c = none → parseHexPairs l = none := by
  intro n
  induction n using Nat.strong_induction_on with
  | _ n ih =>
    intro l hlen c hc hbad
    match l, hc with
    | [a], hc =>
      rfl
    | a :: b :: rest, hc =>
      rcases List.mem_cons.mp hc with rfl | hc1
      · cases hvb : hexDigitVal b with
        | none => simp [parseHexPairs, hbad, hvb]
        | some y => simp [parseHexPairs, hbad, hvb]
      · rcases List.mem_cons.mp hc1 with rfl | hc2
        · cases hva : hexDigitVal a with
          | none => simp [parseHexPairs, hva, hbad]
          | some y => simp [parseHexPairs, hva, hbad]
        · have hrest := ih rest.length (by subst hlen; simp; omega)
            rest rfl c hc2 hbad
          cases hva : hexDigitVal a with
          | none => simp [parseHexPairs, hva]
          | some x =>
            cases hvb : hexDigitVal b with
            | none => simp [parseHexPairs, hva, hvb]
            | some y => simp [parseHexPairs, hva, hvb, hrest]

theorem parseRightsLetters_bad :
    ∀ (l : List Nat) (acc c : Nat), c ∈ l → c ≠ 120 → c ≠ 116 →
      parseRightsLetters acc l = none := by
  intro l
  induction l with
  | nil =>
    intro acc c hc
    exact absurd hc (by simp)
  | cons a rest ih =>
    intro acc c hc h120 h116
    rcases List.mem_cons.mp hc with rfl | hc1
    · simp only [parseRightsLetters]
      rw [if_neg h120, if_neg h116]
    · simp only [parseRightsLetters]
      by_cases ha : a = 120
      · rw [if_pos ha]
        exact ih _ c hc1 h120 h116
      · rw [if_neg ha]
        by_cases ht : a = 116
        · rw [if_pos ht]
          exact ih _ c hc1 h120 h116
        · rw [if_neg ht]

theorem parseRightsLetters_mem :
    ∀ (l : List Nat) (acc r : Nat), parseRightsLetters acc l = some r →
      ∀ x ∈ l, x = 120 ∨ x = 116 := by
  intro l
  induction l with
  | nil =>
    intro acc r h x hx
    exact absurd hx (by simp)
  | cons a rest ih =>
    intro acc r h x hx
    simp only [parseRightsLetters] at h
    by_cases ha : a = 120
    · rw [if_pos ha] at h
      rcases List.mem_cons.mp hx with rfl | hx1
      · exact Or.inl ha
      · exact ih _ r h x hx1
    · rw [if_neg ha] at h
      by_cases ht : a = 116
      · rw [if_pos ht] at h
        rcases List.mem_cons.mp hx with rfl | hx1
        · exact Or.inr ht
        · exact ih _ r h x hx1
      · rw [if_neg ht] at h
        exact absurd h (by simp)

/-- The rights value the replay of `cpn_cap_from_string` carries after a
chain: the rights of the last entry, or the start value for an empty
chain. -/
def chainLastRights (rights : Nat) : List CapEntry → Nat
  | [] => rights
  | e :: rest => chainLastRights e.rights rest

theorem chainLastRights_eq :
    ∀ (chain : List CapEntry) (r : Nat) (e : CapEntry),
      chain.getLast? = some e → chainLastRights r chain = e.rights := by
  intro chain
  induction chain with
  | nil =>
    intro r e h
    exact absurd h (by simp)
  | cons f rest ih =>
    intro r e h
    cases rest with
    | nil =>
      simp only [List.getLast?_singleton, Option.some.injEq] at h
      rw [show chainLastRights r [f] = f.rights from rfl, h]
    | cons g gs =>
      rw [List.getLast?_cons_cons] at h
      exact ih f.rights e h

theorem chainLastRights_effTail (csec : List Nat) (cchain : List CapEntry) :
    chainLastRights (CPN_CAP_RIGHT_EXEC ||| CPN_CAP_RIGHT_TERM) cchain
      = effTailRights ⟨csec, cchain⟩ := by
  unfold effTailRights
  cases hl : cchain.getLast? with
  | none =>
    rw [List.getLast?_eq_none_iff.mp hl]
    rfl
  | some e =>
    exact chainLastRights_eq cchain _ e hl

theorem chainValidB_append_left :
    ∀ (a b : List CapEntry) (r : Nat),
      chainValidB r (a ++ b) = true → chainValidB r a = true := by
  intro a
  induction a with
  | nil =>
    intro b r h
    rfl
  | cons e rest ih =>
    intro b r h
    simp only [List.cons_append, chainValidB, Bool.and_eq_true] at h ⊢
    obtain ⟨⟨⟨⟨h1, h2⟩, h3⟩, h4⟩, h5⟩ := h
    exact ⟨⟨⟨⟨h1, h2⟩, h3⟩, h4⟩, ih b e.rights h5⟩

theorem chainValidB_mem :
    ∀ (l : List CapEntry) (r : Nat), chainValidB r l = true → ∀ e ∈ l,
      e.identity.length = CPN_CAP_SECRET_LEN
        ∧ (∀ b ∈ e.identity, b < 256) ∧ e.rights ≠ 0 := by
  intro l
  induction l with
  | nil =>
    intro r h e he
    exact absurd he (by simp)
  | cons f rest ih =>
    intro r h e he
    simp only [chainValidB, Bool.and_eq_true, decide_eq_true_eq, bne_iff_ne,
      beq_iff_eq] at h
    obtain ⟨⟨⟨⟨h1, h2⟩, h3⟩, h4⟩, h5⟩ := h
    rcases List.mem_cons.mp he with rfl | he1
    · refine ⟨h1, ?_, h3⟩
      intro b hb
      simpa using List.all_eq_true.mp h2 b hb
    · exact ih f.rights h5 e he1

theorem capChainToString_append :
    ∀ (a b : List CapEntry) (sa sb : List Nat),
      capChainToString a = some sa → capChainToString b = some sb →
      capChainToString (a ++ b) = some (sa ++ sb) := by
  intro a
  induction a with
  | nil =>
    intro b sa sb hsa hsb
    have h0 : sa = [] := (Option.some.inj hsa).symm
    subst h0
    simpa using hsb
  | cons e rest ih =>
    intro b sa sb hsa hsb
    simp only [capChainToString] at hsa
    by_cases hr : e.rights = 0
    · rw [if_pos hr] at hsa
      exact absurd hsa (by simp)
    · rw [if_neg hr] at hsa
      cases hR : capChainToString rest with
      | none =>
        rw [hR] at hsa
        exact absurd hsa (by simp)
      | some sR =>
        rw [hR] at hsa
        have hsa2 : sa
            = 124 :: (hexEncode e.identity
                ++ 58 :: (capRightsString e.rights ++ sR)) :=
          (Option.some.inj hsa).symm
        subst hsa2
        rw [List.cons_append]
        simp only [capChainToString]
        rw [if_neg hr, ih b sR sb hR hsb]
        simp [List.append_assoc]

theorem parseChainEntries_missing_colon {rem : List Nat}
    (h : ∀ x ∈ rem, x ≠ 58) (d rights : Nat) :
    parseChainEntries (d + 1) rights (124 :: rem) = none := by
  simp only [parseChainEntries, List.drop_succ_cons, List.drop_zero]
  rw [dropWhile_all_eq_nil (fun x hx => by simpa using h x hx)]
  rfl

theorem parseChainEntries_unknown_letter {idpart letters tail : List Nat}
    {c : Nat} (hid : ∀ x ∈ idpart, x ≠ 58) (hc : c ∈ letters)
    (h120 : c ≠ 120) (h116 : c ≠ 116) (hpipe : ∀ x ∈ letters, x ≠ 124)
    (d rights : Nat) :
    parseChainEntries (d + 1) rights
      (124 :: (idpart ++ 58 :: (letters ++ tail))) = none := by
  simp only [parseChainEntries, List.drop_succ_cons, List.drop_zero]
  rw [takeWhile_append_all (fun x hx => by simpa using hid x hx),
    dropWhile_append_all (fun x hx => by simpa using hid x hx)]
  rw [show ((58 :: (letters ++ tail)).takeWhile (fun c => c != 58)) = []
      from by simp [List.takeWhile_cons]]
  rw [List.dropWhile_cons_of_neg (by simp)]
  simp only [List.append_nil, List.isEmpty_cons, List.drop_succ_cons,
    List.drop_zero]
  have hreg : parseRightsLetters 0
      ((letters ++ tail).takeWhile (fun c => c != 124)) = none := by
    rw [takeWhile_append_all (fun x hx => by simpa using hpipe x hx)]
    exact parseRightsLetters_bad _ 0 c (List.mem_append_left _ hc) h120 h116
  cases hhex : parse_hex CPN_CAP_SECRET_LEN idpart with
  | none => rfl
  | some ident =>
    simp only [hreg]
    rfl

theorem parseChainEntries_expanding {idpart letters tail : List Nat}
    {r : Nat} (hid : ∀ x ∈ idpart, x ≠ 58)
    (hlet : parseRightsLetters 0 letters = some r)
    (htail : tail.takeWhile (fun c => c != 124) = [])
    (d rights : Nat) (hexp : r &&& comp32 rights ≠ 0) :
    parseChainEntries (d + 1) rights
      (124 :: (idpart ++ 58 :: (letters ++ tail))) = none := by
  simp only [parseChainEntries, List.drop_succ_cons, List.drop_zero]
  rw [takeWhile_append_all (fun x hx => by simpa using hid x hx),
    dropWhile_append_all (fun x hx => by simpa using hid x hx)]
  rw [show ((58 :: (letters ++ tail)).takeWhile (fun c => c != 58)) = []
      from by simp [List.takeWhile_cons]]
  rw [List.dropWhile_cons_of_neg (by simp)]
  simp only [List.append_nil, List.isEmpty_cons, List.drop_succ_cons,
    List.drop_zero]
  have hmem : ∀ x ∈ letters, ((x : Nat) != 124) = true := by
    intro x hx
    rcases parseRightsLetters_mem letters 0 r hlet x hx with h | h <;> simp [h]
  have hreg : (letters ++ tail).takeWhile (fun c => c != 124) = letters := by
    rw [takeWhile_append_all hmem, htail, List.append_nil]
  cases hhex : parse_hex CPN_CAP_SECRET_LEN idpart with
  | none => rfl
  | some ident =>
    simp only [hreg, hlet, if_pos (Or.inr hexp)]
    rfl

theorem parseChainEntries_append_none :
    ∀ (chain : List CapEntry) (rights : Nat) (str rest : List Nat) (d : Nat),
      rights ≤ 3 → chainValidB rights chain = true →
      capChainToString chain = some str →
      rest.takeWhile (fun c => c != 124) = [] →
      rest.dropWhile (fun c => c != 124) = rest →
      parseChainEntries d (chainLastRights rights chain) rest = none →
      parseChainEntries (chain.length + d) rights (str ++ rest) = none := by
  intro chain
  induction chain with
  | nil =>
    intro rights str rest d h3 hv hstr htw hdw hrest
    have hstr0 : str = [] := by
      simp only [capChainToString, Option.some.injEq] at hstr
      exact hstr.symm
    subst hstr0
    simp only [List.length_nil, Nat.zero_add, List.nil_append]
    exact hrest
  | cons e rest2 ih =>
    intro rights str rest d h3 hv hstr htw hdw hrest
    simp only [chainValidB, Bool.and_eq_true, decide_eq_true_eq, bne_iff_ne,
      beq_iff_eq] at hv
    obtain ⟨⟨⟨⟨hidlen, hidall⟩, hrne⟩, hsub⟩, hvrest⟩ := hv
    have hidbytes : ∀ b ∈ e.identity, b < 256 := by
      intro b hb
      have := List.all_eq_true.mp hidall b hb
      simpa using this
    have herle : e.rights ≤ rights := hsub ▸ Nat.and_le_right
    simp only [capChainToString] at hstr
    rw [if_neg hrne] at hstr
    cases hstrR : capChainToString rest2 with
    | none =>
      rw [hstrR] at hstr
      exact absurd hstr (by simp)
    | some strR =>
      rw [hstrR] at hstr
      have hstreq : str
          = 124 :: (hexEncode e.identity
              ++ 58 :: (capRightsString e.rights ++ strR)) :=
        (Option.some.inj hstr).symm
      subst hstreq
      obtain ⟨strR₂, hstrR₂, hparseR₂, hcountR₂, htwR, hdwR⟩ :=
        capChainToString_roundtrip (le_trans herle h3) hvrest
      have hR : strR = strR₂ := Option.some.inj (hstrR.symm.trans hstrR₂)
      subst hR
      rw [show (e :: rest2).length + d = (rest2.length + d) + 1
          from by simp only [List.length_cons]; omega]
      rw [List.cons_append]
      simp only [parseChainEntries, List.drop_succ_cons, List.drop_zero]
      simp only [List.append_assoc, List.cons_append]
      rw [takeWhile_append_all (hexEncode_not_colon hidbytes),
        dropWhile_append_all (hexEncode_not_colon hidbytes)]
      rw [show ((58 :: (capRightsString e.rights ++ (strR ++ rest))).takeWhile
            (fun c => c != 58)) = [] from by simp [List.takeWhile_cons]]
      rw [List.dropWhile_cons_of_neg (by simp)]
      simp only [List.append_nil, List.isEmpty_cons, List.drop_succ_cons,
        List.drop_zero]
      rw [parse_hex_hexEncode hidlen hidbytes]
      rw [takeWhile_append_all (capRightsString_not_pipe),
        dropWhile_append_all (capRightsString_not_pipe)]
      rw [takeWhile_append_nil htwR htw, dropWhile_append_self htwR hdw]
      rw [List.append_nil]
      rw [parseRightsLetters_capRightsString hrne (le_trans herle h3)]
      have hcond : ¬(e.rights = 0 ∨ e.rights &&& comp32 rights ≠ 0) := by
        push_neg
        exact ⟨hrne, and_comp32_eq_zero_of_subset
          (lt_of_le_of_lt h3 (by decide)) hsub⟩
      have hrec := ih e.rights strR rest d (le_trans herle h3) hvrest
        hstrR htw hdw hrest
      simp only [if_neg hcond, hrec]
      rfl

theorem cpn_cap_from_string_chain_reject (cap : Cap) (s₀ rest : List Nat)
    (hval : ValidCap cap = true) (hs₀ : cpn_cap_to_string cap = some s₀)
    (htw : rest.takeWhile (fun c => c != 124) = [])
    (hdw : rest.dropWhile (fun c => c != 124) = rest)
    (hne : rest ≠ [])
    (hfam : ∀ d, parseChainEntries (d + 1) (effTailRights cap) rest = none) :
    cpn_cap_from_string (s₀ ++ rest) = none := by
  obtain ⟨csec, cchain⟩ := cap
  simp only [ValidCap, Bool.and_eq_true, decide_eq_true_eq] at hval
  obtain ⟨⟨hslen, hsall⟩, hchain⟩ := hval
  have hsbytes : ∀ b ∈ csec, b < 256 := by
    intro b hb
    have := List.all_eq_true.mp hsall b hb
    simpa using this
  simp only [cpn_cap_to_string] at hs₀
  cases hstrC : capChainToString cchain with
  | none =>
    rw [hstrC] at hs₀
    exact absurd hs₀ (by simp)
  | some strC =>
    rw [hstrC] at hs₀
    have hs : s₀ = hexEncode csec ++ strC := (Option.some.inj hs₀).symm
    subst hs
    obtain ⟨strC₂, hstrC₂, hparseC, hcountC, htwC, hdwC⟩ :=
      capChainToString_roundtrip (by decide) hchain
    have hCeq : strC = strC₂ := Option.some.inj (hstrC.symm.trans hstrC₂)
    subst hCeq
    have h124 : (124 : Nat) ∈ rest := by
      cases rest with
      | nil => exact absurd rfl hne
      | cons r rs =>
        have hr : r = 124 := by
          by_contra hrne
          rw [show List.takeWhile (fun c => (c : Nat) != 124) (r :: rs)
                = r :: List.takeWhile (fun c => (c : Nat) != 124) rs
              from List.takeWhile_cons_of_pos (by simpa using hrne)] at htw
          exact absurd htw (by simp)
        subst hr
        exact List.mem_cons_self 124 rs
    have hkpos : 0 < List.count 124 rest := List.count_pos_iff.mpr h124
    have hcne : strC ++ rest ≠ [] := by
      intro h
      rcases List.append_eq_nil.mp h with ⟨-, h2⟩
      exact hne h2
    rw [List.append_assoc]
    simp only [cpn_cap_from_string]
    rw [takeWhile_append_all (hexEncode_not_pipe hsbytes),
      dropWhile_append_all (hexEncode_not_pipe hsbytes)]
    rw [takeWhile_append_nil htwC htw, dropWhile_append_self htwC hdw]
    rw [List.append_nil]
    rw [if_neg (fun h => h (by rw [hexEncode_length, hslen]))]
    rw [parse_hex_hexEncode hslen hsbytes]
    rw [show (strC ++ rest).isEmpty = false from by
      rw [Bool.eq_false_iff]
      exact fun h => hcne (List.isEmpty_iff.mp h)]
    rw [show List.count 124 (hexEncode csec ++ (strC ++ rest))
          = cchain.length + List.count 124 rest from by
        rw [List.count_append, List.count_append,
          hexEncode_count_pipe hsbytes, hcountC]
        omega]
    rw [show cchain.length + List.count 124 rest
          = cchain.length + ((List.count 124 rest - 1) + 1) from by omega]
    rw [parseChainEntries_append_none cchain
      (CPN_CAP_RIGHT_EXEC ||| CPN_CAP_RIGHT_TERM) strC rest
      ((List.count 124 rest - 1) + 1) (by decide) hchain hstrC htw hdw
      (by rw [chainLastRights_effTail csec cchain]; exact hfam _)]
    rfl

theorem cpn_cap_from_string_nonhex_secret (s : List Nat) (c : Nat)
    (hc : c ∈ s.takeWhile (fun x => (x : Nat) != 124))
    (hbad : hexDigitVal c = none) :
    cpn_cap_from_string s = none := by
  by_cases hlen : (s.takeWhile (fun c => (c : Nat) != 124)).length
      = CPN_CAP_SECRET_LEN * 2
  · simp only [cpn_cap_from_string]
    rw [if_neg (fun h => h hlen)]
    rw [show parse_hex CPN_CAP_SECRET_LEN
          (s.takeWhile (fun c => (c : Nat) != 124)) = none from by
      unfold parse_hex
      rw [if_pos hlen]
      exact parseHexPairs_bad _ _ rfl c hc hbad]
  · simp only [cpn_cap_from_string]
    rw [if_pos hlen]

theorem cpn_cap_from_string_missing_colon (cap : Cap) (s₀ rem : List Nat)
    (hval : ValidCap cap = true) (hs₀ : cpn_cap_to_string cap = some s₀)
    (hrem : ∀ x ∈ rem, x ≠ 58) :
    cpn_cap_from_string (s₀ ++ 124 :: rem) = none :=
  cpn_cap_from_string_chain_reject cap s₀ _ hval hs₀
    (by simp [List.takeWhile_cons])
    (List.dropWhile_cons_of_neg (by simp))
    (by simp)
    (fun d => parseChainEntries_missing_colon hrem d _)

theorem cpn_cap_from_string_unknown_letter (cap : Cap)
    (s₀ idpart letters tail : List Nat) (c : Nat)
    (hval : ValidCap cap = true) (hs₀ : cpn_cap_to_string cap = some s₀)
    (hid : ∀ x ∈ idpart, x ≠ 58) (hc : c ∈ letters) (h120 : c ≠ 120)
    (h116 : c ≠ 116) (hpipe : ∀ x ∈ letters, x ≠ 124) :
    cpn_cap_from_string (s₀ ++ 124 :: (idpart ++ 58 :: (letters ++ tail)))
      = none :=
  cpn_cap_from_string_chain_reject cap s₀ _ hval hs₀
    (by simp [List.takeWhile_cons])
    (List.dropWhile_cons_of_neg (by simp))
    (by simp)
    (fun d => parseChainEntries_unknown_letter hid hc h120 h116 hpipe d _)

theorem cpn_cap_from_string_expanding (cap : Cap)
    (s₀ idpart letters tail : List Nat) (r : Nat)
    (hval : ValidCap cap = true) (hs₀ : cpn_cap_to_string cap = some s₀)
    (hid : ∀ x ∈ idpart, x ≠ 58)
    (hlet : parseRightsLetters 0 letters = some r)
    (hexp : r &&& comp32 (effTailRights cap) ≠ 0)
    (htail : tail.takeWhile (fun x => (x : Nat) != 124) = []) :
    cpn_cap_from_string (s₀ ++ 124 :: (idpart ++ 58 :: (letters ++ tail)))
      = none :=
  cpn_cap_from_string_chain_reject cap s₀ _ hval hs₀
    (by simp [List.takeWhile_cons])
    (List.dropWhile_cons_of_neg (by simp))
    (by simp)
    (fun d => parseChainEntries_expanding hid hlet htail d _ hexp)

theorem cpn_cap_from_string_trailing_root (cap : Cap) (s₀ : List Nat)
    (j : Nat) (js : List Nat) (hval : ValidCap cap = true)
    (hroot : cap.chain = []) (hs₀ : cpn_cap_to_string cap = some s₀)
    (hj : j ≠ 124) :
    cpn_cap_from_string (s₀ ++ j :: js) = none := by
  obtain ⟨csec, cchain⟩ := cap
  have hcc : cchain = [] := hroot
  subst hcc
  simp only [ValidCap, Bool.and_eq_true, decide_eq_true_eq] at hval
  obtain ⟨⟨hslen, hsall⟩, -⟩ := hval
  have hsbytes : ∀ b ∈ csec, b < 256 := by
    intro b hb
    have := List.all_eq_true.mp hsall b hb
    simpa using this
  have hs : s₀ = hexEncode csec := by
    simp only [cpn_cap_to_string, capChainToString, List.append_nil,
      Option.some.injEq] at hs₀
    exact hs₀.symm
  subst hs
  simp only [cpn_cap_from_string]
  rw [takeWhile_append_all (hexEncode_not_pipe hsbytes)]
  rw [show List.takeWhile (fun c => (c : Nat) != 124) (j :: js)
        = j :: List.takeWhile (fun c => (c : Nat) != 124) js
      from List.takeWhile_cons_of_pos (by simpa using hj)]
  rw [if_pos (by
    rw [List.length_append, hexEncode_length, hslen]
    simp only [List.length_cons]
    omega)]

theorem cpn_cap_from_string_trailing_chain (cap : Cap) (s₀ : List Nat)
    (j : Nat) (js : List Nat) (hval : ValidCap cap = true)
    (hne : cap.chain ≠ []) (hs₀ : cpn_cap_to_string cap = some s₀)
    (hj124 : j ≠ 124) (hj120 : j ≠ 120) (hj116 : j ≠ 116) :
    cpn_cap_from_string (s₀ ++ j :: js) = none := by
  obtain ⟨csec, cchain⟩ := cap
  have hcne : cchain ≠ [] := hne
  have hsplit : cchain.dropLast ++ [cchain.getLast hcne] = cchain :=
    List.dropLast_append_getLast hcne
  simp only [ValidCap, Bool.and_eq_true, decide_eq_true_eq] at hval
  obtain ⟨⟨hslen, hsall⟩, hchain⟩ := hval
  have hsbytes : ∀ b ∈ csec, b < 256 := by
    intro b hb
    have := List.all_eq_true.mp hsall b hb
    simpa using this
  have hchainAE : chainValidB (CPN_CAP_RIGHT_EXEC ||| CPN_CAP_RIGHT_TERM)
      (cchain.dropLast ++ [cchain.getLast hcne]) = true := by
    rw [hsplit]
    exact hchain
  have hvalidA : chainValidB (CPN_CAP_RIGHT_EXEC ||| CPN_CAP_RIGHT_TERM)
      cchain.dropLast = true :=
    chainValidB_append_left _ _ _ hchainAE
  have hemem : cchain.getLast hcne ∈ cchain := List.getLast_mem hcne
  obtain ⟨hielen, hibytes, hirne⟩ :=
    chainValidB_mem cchain _ hchain (cchain.getLast hcne) hemem
  obtain ⟨strA, hstrA, -, -, -, -⟩ :=
    capChainToString_roundtrip (by decide) hvalidA
  have hstrE : capChainToString [cchain.getLast hcne]
      = some (124 :: (hexEncode (cchain.getLast hcne).identity
          ++ 58 :: (capRightsString (cchain.getLast hcne).rights ++ []))) := by
    simp only [capChainToString]
    rw [if_neg hirne]
  have hstrAE : capChainToString cchain
      = some (strA ++ (124 :: (hexEncode (cchain.getLast hcne).identity
          ++ 58 :: (capRightsString (cchain.getLast hcne).rights ++ [])))) := by
    have hap := capChainToString_append _ _ _ _ hstrA hstrE
    rw [hsplit] at hap
    exact hap
  have hs : s₀ = hexEncode csec
      ++ (strA ++ (124 :: (hexEncode (cchain.getLast hcne).identity
          ++ 58 :: (capRightsString (cchain.getLast hcne).rights ++ [])))) := by
    simp only [cpn_cap_to_string, hstrAE, Option.some.injEq] at hs₀
    exact hs₀.symm
  subst hs
  have hvalpre : ValidCap ⟨csec, cchain.dropLast⟩ = true := by
    simp only [ValidCap, Bool.and_eq_true, decide_eq_true_eq]
    exact ⟨⟨hslen, hsall⟩, hvalidA⟩
  have hs₀pre : cpn_cap_to_string ⟨csec, cchain.dropLast⟩
      = some (hexEncode csec ++ strA) := by
    simp only [cpn_cap_to_string, hstrA]
  have hlp : ∀ x ∈ capRightsString (cchain.getLast hcne).rights ++ [j],
      x ≠ 124 := by
    intro x hx
    rcases List.mem_append.mp hx with h | h
    · rcases capRightsString_mem x h with h₁ | h₁ <;> subst h₁ <;> decide
    · have hxj : x = j := by simpa using h
      rw [hxj]
      exact hj124
  have hidnc : ∀ x ∈ hexEncode (cchain.getLast hcne).identity, x ≠ 58 := by
    intro x hx
    have := hexEncode_not_colon hibytes x hx
    simpa using this
  rw [show (hexEncode csec ++ (strA
        ++ (124 :: (hexEncode (cchain.getLast hcne).identity
            ++ 58 :: (capRightsString (cchain.getLast hcne).rights ++ [])))))
        ++ j :: js
      = (hexEncode csec ++ strA)
        ++ 124 :: (hexEncode (cchain.getLast hcne).identity
            ++ 58 :: ((capRightsString (cchain.getLast hcne).rights ++ [j])
                ++ js))
      from by simp [List.append_assoc]]
  exact cpn_cap_from_string_unknown_letter ⟨csec, cchain.dropLast⟩
    (hexEncode csec ++ strA) (hexEncode (cchain.getLast hcne).identity)
    (capRightsString (cchain.getLast hcne).rights ++ [j]) js j hvalpre hs₀pre
    hidnc (List.mem_append_right _ (by simp)) hj120 hj116 hlp

/-- C4: for every valid capability the string codec round-trips, and
`cpn_cap_from_string` rejects, universally over each family: any string
whose secret part is not 64 characters; any string with a non-hex
character in its secret part; any valid prefix followed by a chain entry
with no `:`, with an unknown rights letter, or with parsed rights that
expand the prefix's tail rights; and any serialised capability followed
by trailing garbage (a character other than `|`, and for a non-root
capability other than the rights letters `x`/`t`, which the parser
absorbs into the final entry). -/
theorem cpn_cap_string_codec :
    (∀ c : Cap, ValidCap c = true →
        ∃ s, cpn_cap_to_string c = some s ∧ cpn_cap_from_string s = some c)
      ∧ (∀ s : List Nat,
          (s.takeWhile (fun c => c != 124)).length ≠ CPN_CAP_SECRET_LEN * 2 →
          cpn_cap_from_string s = none)
      ∧ (∀ (s : List Nat) (c : Nat),
          c ∈ s.takeWhile (fun x => (x : Nat) != 124) →
          hexDigitVal c = none → cpn_cap_from_string s = none)
      ∧ (∀ (cap : Cap) (s₀ rem : List Nat), ValidCap cap = true →
          cpn_cap_to_string cap = some s₀ → (∀ x ∈ rem, x ≠ 58) →
          cpn_cap_from_string (s₀ ++ 124 :: rem) = none)
      ∧ (∀ (cap : Cap) (s₀ idpart letters tail : List Nat) (c : Nat),
          ValidCap cap = true → cpn_cap_to_string cap = some s₀ →
          (∀ x ∈ idpart, x ≠ 58) → c ∈ letters → c ≠ 120 → c ≠ 116 →
          (∀ x ∈ letters, x ≠ 124) →
          cpn_cap_from_string
            (s₀ ++ 124 :: (idpart ++ 58 :: (letters ++ tail))) = none)
      ∧ (∀ (cap : Cap) (s₀ idpart letters tail : List Nat) (r : Nat),
          ValidCap cap = true → cpn_cap_to_string cap = some s₀ →
          (∀ x ∈ idpart, x ≠ 58) → parseRightsLetters 0 letters = some r →
          r &&& comp32 (effTailRights cap) ≠ 0 →
          tail.takeWhile (fun x => (x : Nat) != 124) = [] →
          cpn_cap_from_string
            (s₀ ++ 124 :: (idpart ++ 58 :: (letters ++ tail))) = none)
      ∧ (∀ (cap : Cap) (s₀ : List Nat) (j : Nat) (js : List Nat),
          ValidCap cap = true → cap.chain = [] →
          cpn_cap_to_string cap = some s₀ → j ≠ 124 →
          cpn_cap_from_string (s₀ ++ j :: js) = none)
      ∧ (∀ (cap : Cap) (s₀ : List Nat) (j : Nat) (js : List Nat),
          ValidCap cap = true → cap.chain ≠ [] →
          cpn_cap_to_string cap = some s₀ → j ≠ 124 → j ≠ 120 → j ≠ 116 →
          cpn_cap_from_string (s₀ ++ j :: js) = none) := by
  refine ⟨?_, ?_, ?_, ?_, ?_, ?_, ?_, ?_⟩
  · intro c hval
    obtain ⟨csec, cchain⟩ := c
    simp only [ValidCap, Bool.and_eq_true, decide_eq_true_eq] at hval
    obtain ⟨⟨hslen, hsall⟩, hchain⟩ := hval
    have hsbytes : ∀ b ∈ csec, b < 256 := by
      intro b hb
      simpa using List.all_eq_true.mp hsall b hb
    obtain ⟨strC, hstrC, hparseC, hcountC, htwC, hdwC⟩ :=
      capChainToString_roundtrip (by decide) hchain
    refine ⟨hexEncode csec ++ strC, ?_, ?_⟩
    · unfold cpn_cap_to_string
      rw [show (Cap.mk csec cchain).chain = cchain from rfl, hstrC]
    · have htake : (hexEncode csec ++ strC).takeWhile (fun c => c != 124)
          = hexEncode csec := by
        rw [takeWhile_append_all (hexEncode_not_pipe hsbytes), htwC,
          List.append_nil]
      have hcount : List.count 124 (hexEncode csec ++ strC) = cchain.length := by
        rw [List.count_append, hexEncode_count_pipe hsbytes, hcountC, Nat.zero_add]
      have hdrop : (hexEncode csec ++ strC).dropWhile (fun c => c != 124) = strC := by
        rw [dropWhile_append_all (hexEncode_not_pipe hsbytes), hdwC]
      simp only [cpn_cap_from_string, htake, hcount, hdrop,
        parse_hex_hexEncode hslen hsbytes, hexEncode_length, hslen]
      rw [if_neg (by simp)]
      by_cases hempty : strC = []
      · rw [hempty] at hcountC
        simp only [List.count_nil] at hcountC
        have hnil : cchain = [] := List.length_eq_zero.mp hcountC.symm
        rw [hempty]
        subst hnil
        rfl
      · rw [if_neg (fun h => hempty (List.isEmpty_iff.mp h))]
        simp only [hparseC]
  · intro s hlen
    simp only [cpn_cap_from_string]
    rw [if_pos hlen]
  · intro s c hc hbad
    exact cpn_cap_from_string_nonhex_secret s c hc hbad
  · intro cap s₀ rem hval hs₀ hrem
    exact cpn_cap_from_string_missing_colon cap s₀ rem hval hs₀ hrem
  · intro cap s₀ idpart letters tail c hval hs₀ hid hc h120 h116 hpipe
    exact cpn_cap_from_string_unknown_letter cap s₀ idpart letters tail c
      hval hs₀ hid hc h120 h116 hpipe
  · intro cap s₀ idpart letters tail r hval hs₀ hid hlet hexp htail
    exact cpn_cap_from_string_expanding cap s₀ idpart letters tail r
      hval hs₀ hid hlet hexp htail
  · intro cap s₀ j js hval hroot hs₀ hj
    exact cpn_cap_from_string_trailing_root cap s₀ j js hval hroot hs₀ hj
  · intro cap s₀ j js hval hnil hs₀ hj124 hj120 hj116
    exact cpn_cap_from_string_trailing_chain cap s₀ j js hval hnil hs₀
      hj124 hj120 hj116

/-- A concrete valid capability: secret of 32 `0xaa` bytes, one chain
entry carrying `EXEC ∪ TERM` — the shape of spec scenario S5. -/
def capC4 : Cap :=
  ⟨List.replicate 32 170,
    [⟨List.replicate 32 170, CPN_CAP_RIGHT_EXEC ||| CPN_CAP_RIGHT_TERM⟩]⟩

theorem cpn_cap_string_codec_witness :
    ValidCap capC4 = true
      ∧ ∃ s, cpn_cap_to_string capC4 = some s
          ∧ cpn_cap_from_string s = some capC4 :=
  ⟨by decide, cpn_cap_string_codec.1 capC4 (by decide)⟩

/-- `struct cpn_session` as the registry sees it: the identifier the
lookups compare (`cap.objectid` in the sessions translation unit,
`identifier` in the capone headers) plus the root capability; the
parameter and creator fields do not affect the registry operations. -/
structure Session where
  sessionid : Nat
  cap : Cap
deriving DecidableEq

/-- `cpn_sessions_find` (sessions translation unit): first list entry
whose identifier matches. -/
def cpn_sessions_find (sessions : List Session) (sessionid : Nat) : Option Session :=
  match sessions with
  | [] => none
  | s :: rest =>
      if s.sessionid = sessionid then some s
      else cpn_sessions_find rest sessionid

/-- `cpn_sessions_remove` (sessions translation unit): unlink the first
matching entry and hand it out; error when no entry matches. -/
def cpn_sessions_remove (sessions : List Session) (sessionid : Nat) :
    Option (Session × List Session) :=
  match sessions with
  | [] => none
  | s :: rest =>
      if s.sessionid = sessionid then some (s, rest)
      else
        match cpn_sessions_remove rest sessionid with
        | some (r, rest₂) => some (r, s :: rest₂)
        | none => none

/-- `cpn_sessions_add` (sessions translation unit): `cpn_list_append`
puts the new session at the end. -/
def cpn_sessions_add (sessions : List Session) (s : Session) : List Session :=
  sessions ++ [s]

theorem cpn_sessions_find_eq_none_of_not_mem {reg : List Session} {id : Nat}
    (h : id ∉ reg.map Session.sessionid) :
    cpn_sessions_find reg id = none := by
  induction reg with
  | nil => rfl
  | cons a rest ih =>
    simp only [List.map_cons, List.mem_cons, not_or] at h
    simp only [cpn_sessions_find]
    rw [if_neg (fun he => h.1 he.symm)]
    exact ih h.2

theorem cpn_sessions_remove_eq_none_of_not_mem {reg : List Session} {id : Nat}
    (h : id ∉ reg.map Session.sessionid) :
    cpn_sessions_remove reg id = none := by
  induction reg with
  | nil => rfl
  | cons a rest ih =>
    simp only [List.map_cons, List.mem_cons, not_or] at h
    simp only [cpn_sessions_remove]
    rw [if_neg (fun he => h.1 he.symm), ih h.2]

theorem cpn_sessions_remove_not_mem {reg : List Session} {id : Nat}
    {s : Session} {reg₂ : List Session}
    (hnodup : (reg.map Session.sessionid).Nodup)
    (h : cpn_sessions_remove reg id = some (s, reg₂)) :
    id ∉ reg₂.map Session.sessionid := by
  induction reg generalizing reg₂ with
  | nil => exact absurd h (by simp [cpn_sessions_remove])
  | cons a rest ih =>
    simp only [List.map_cons, List.nodup_cons] at hnodup
    simp only [cpn_sessions_remove] at h
    by_cases he : a.sessionid = id
    · rw [if_pos he] at h
      have : reg₂ = rest := (congrArg Prod.snd (Option.some.inj h)).symm
      rw [this]
      exact he ▸ hnodup.1
    · rw [if_neg he] at h
      cases hrem : cpn_sessions_remove rest id with
      | none =>
        rw [hrem] at h
        exact absurd h (by simp)
      | some pr =>
        obtain ⟨r, rest₂⟩ := pr
        rw [hrem] at h
        have hpair := Option.some.inj h
        have hr : r = s := congrArg Prod.fst hpair
        have h₂ : reg₂ = a :: rest₂ := (congrArg Prod.snd hpair).symm
        subst hr
        rw [h₂]
        simp only [List.map_cons, List.mem_cons, not_or]
        exact ⟨fun hc => he hc.symm, ih hnodup.2 hrem⟩

theorem cpn_sessions_find_append_self {reg : List Session} {id : Nat}
    (h : id ∉ reg.map Session.sessionid) (s : Session) (hs : s.sessionid = id) :
    cpn_sessions_find (reg ++ [s]) id = some s := by
  induction reg with
  | nil =>
    simp only [List.nil_append, cpn_sessions_find]
    rw [if_pos hs]
  | cons a rest ih =>
    simp only [List.map_cons, List.mem_cons, not_or] at h
    simp only [List.cons_append, cpn_sessions_find]
    rw [if_neg (fun he => h.1 he.symm)]
    exact ih h.2

/-- C9 (amended): in a registry whose identifiers are pairwise distinct,
once `cpn_sessions_remove id` has succeeded, `cpn_sessions_find id` and
a second `cpn_sessions_remove id` both fail on the resulting registry,
and adding a fresh session with that identifier makes `find` succeed
again. -/
theorem cpn_sessions_remove_find_fail (reg : List Session) (id : Nat)
    (s : Session) (reg₂ : List Session)
    (hnodup : (reg.map Session.sessionid).Nodup)
    (hrem : cpn_sessions_remove reg id = some (s, reg₂)) :
    cpn_sessions_find reg₂ id = none
      ∧ cpn_sessions_remove reg₂ id = none
      ∧ ∀ cap₂ : Cap,
          cpn_sessions_find (cpn_sessions_add reg₂ ⟨id, cap₂⟩) id = some ⟨id, cap₂⟩ := by
  have hnm := cpn_sessions_remove_not_mem hnodup hrem
  exact ⟨cpn_sessions_find_eq_none_of_not_mem hnm,
    cpn_sessions_remove_eq_none_of_not_mem hnm,
    fun cap₂ => cpn_sessions_find_append_self hnm ⟨id, cap₂⟩ rfl⟩

theorem cpn_sessions_remove_find_fail_witness :
    cpn_sessions_remove [⟨1, rootCap0⟩, ⟨2, rootCap0⟩] 1
        = some (⟨1, rootCap0⟩, [⟨2, rootCap0⟩])
      ∧ cpn_sessions_find [⟨2, rootCap0⟩] 1 = none
      ∧ cpn_sessions_remove [⟨2, rootCap0⟩] 1 = none := by
  refine ⟨by decide, ?_, ?_⟩
  · exact (cpn_sessions_remove_find_fail [⟨1, rootCap0⟩, ⟨2, rootCap0⟩] 1
      ⟨1, rootCap0⟩ [⟨2, rootCap0⟩] (by decide) (by decide)).1
  · exact (cpn_sessions_remove_find_fail [⟨1, rootCap0⟩, ⟨2, rootCap0⟩] 1
      ⟨1, rootCap0⟩ [⟨2, rootCap0⟩] (by decide) (by decide)).2.1

/-- C9 counterexample: with two sessions sharing identifier 1 the first
remove succeeds, yet `cpn_sessions_find 1` still succeeds on the
resulting registry — the claim fails for registry states with duplicate
identifiers. -/
theorem cpn_sessions_remove_duplicate_counterexample :
    cpn_sessions_remove [⟨1, rootCap0⟩, ⟨1, rootCap0⟩] 1
        = some (⟨1, rootCap0⟩, [⟨1, rootCap0⟩])
      ∧ cpn_sessions_find [⟨1, rootCap0⟩] 1 ≠ none := by
  decide

/-- Observable actions of `cpn_proto_handle_session`: a `SessionResult`
message with the given result, or the invocation of the service
plugin's `server_fn`. -/
inductive ProtoEvent where
  | sendResult (result : Int)
  | runPlugin
deriving DecidableEq

/-- What a run of `cpn_proto_handle_session` produces: the messages and
plugin call in order, plus the session registry it leaves behind. -/
structure HandleOutcome where
  events : List ProtoEvent
  sessions : List Session
deriving DecidableEq

/-- `cpn_proto_handle_session` (src/lib/proto.c) on a received
`SessionInitiationMessage`: an unparsable capability, a missing session
or a failed `cpn_caps_verify` for `EXEC` with the remote key all jump to
`out_notify` with `err = -1` and leave the registry alone; otherwise the
session is removed, `SessionResult 0` is sent, and only then the plugin
`server_fn` runs. -/
def cpn_proto_handle_session (H : List Nat → List Nat) (sessions : List Session)
    (remote_key : List Nat) (identifier : Nat) (cap : Option Cap) : HandleOutcome :=
  match cap with
  | none => ⟨[ProtoEvent.sendResult (-1)], sessions⟩
  | some c =>
      match cpn_sessions_find sessions identifier with
      | none => ⟨[ProtoEvent.sendResult (-1)], sessions⟩
      | some session =>
          if cpn_caps_verify H c session.cap remote_key CPN_CAP_RIGHT_EXEC then
            match cpn_sessions_remove sessions identifier with
            | some (_, rest) =>
                ⟨[ProtoEvent.sendResult 0, ProtoEvent.runPlugin], rest⟩
            | none => ⟨[ProtoEvent.sendResult (-1)], sessions⟩
          else ⟨[ProtoEvent.sendResult (-1)], sessions⟩

theorem cpn_sessions_remove_isSome_of_find {reg : List Session} {id : Nat}
    {s : Session} (h : cpn_sessions_find reg id = some s) :
    ∃ r rest, cpn_sessions_remove reg id = some (r, rest) := by
  induction reg with
  | nil => exact absurd h (by simp [cpn_sessions_find])
  | cons a rest ih =>
    simp only [cpn_sessions_find] at h
    simp only [cpn_sessions_remove]
    by_cases he : a.sessionid = id
    · rw [if_pos he]
      exact ⟨a, rest, rfl⟩
    · rw [if_neg he] at h
      rw [if_neg he]
      obtain ⟨r, rest₂, hrem⟩ := ih h
      rw [hrem]
      exact ⟨r, a :: rest₂, rfl⟩

/-- C3: the plugin `server_fn` runs exactly when the session exists and
the presented capability verifies against its root for `EXEC` with the
remote key; in that case the session is removed and `SessionResult 0` is
sent before the plugin runs, and on any guard failure a nonzero
`SessionResult -1` is sent with the registry unchanged. -/
theorem cpn_proto_handle_session_spec (H : List Nat → List Nat)
    (sessions : List Session) (remote_key : List Nat) (identifier : Nat)
    (cap : Option Cap) :
    (ProtoEvent.runPlugin
        ∈ (cpn_proto_handle_session H sessions remote_key identifier cap).events
      ↔ ∃ c session, cap = some c
          ∧ cpn_sessions_find sessions identifier = some session
          ∧ cpn_caps_verify H c session.cap remote_key CPN_CAP_RIGHT_EXEC = true)
    ∧ ((∃ c session, cap = some c
          ∧ cpn_sessions_find sessions identifier = some session
          ∧ cpn_caps_verify H c session.cap remote_key CPN_CAP_RIGHT_EXEC = true) →
        ∃ s rest, cpn_sessions_remove sessions identifier = some (s, rest)
          ∧ cpn_proto_handle_session H sessions remote_key identifier cap
              = ⟨[ProtoEvent.sendResult 0, ProtoEvent.runPlugin], rest⟩)
    ∧ (¬(∃ c session, cap = some c
          ∧ cpn_sessions_find sessions identifier = some session
          ∧ cpn_caps_verify H c session.cap remote_key CPN_CAP_RIGHT_EXEC = true) →
        cpn_proto_handle_session H sessions remote_key identifier cap
          = ⟨[ProtoEvent.sendResult (-1)], sessions⟩) := by
  cases cap with
  | none =>
    refine ⟨by simp [cpn_proto_handle_session], ?_, fun _ => rfl⟩
    rintro ⟨c, session, hc, -⟩
    exact absurd hc (by simp)
  | some c =>
    cases hf : cpn_sessions_find sessions identifier with
    | none =>
      have hout : cpn_proto_handle_session H sessions remote_key identifier (some c)
          = ⟨[ProtoEvent.sendResult (-1)], sessions⟩ := by
        simp only [cpn_proto_handle_session, hf]
      refine ⟨?_, ?_, fun _ => hout⟩
      · rw [hout]
        constructor
        · intro hmem
          exact absurd hmem (by simp)
        · rintro ⟨c₂, session, hc, hfind, -⟩
          exact absurd hfind (by simp)
      · rintro ⟨c₂, session, hc, hfind, -⟩
        exact absurd hfind (by simp)
    | some session =>
      by_cases hv : cpn_caps_verify H c session.cap remote_key CPN_CAP_RIGHT_EXEC = true
      · obtain ⟨r, rest, hrem⟩ := cpn_sessions_remove_isSome_of_find hf
        have hout : cpn_proto_handle_session H sessions remote_key identifier (some c)
            = ⟨[ProtoEvent.sendResult 0, ProtoEvent.runPlugin], rest⟩ := by
          simp only [cpn_proto_handle_session, hf, hv, if_true, hrem]
        refine ⟨?_, fun _ => ⟨r, rest, hrem, hout⟩, ?_⟩
        · rw [hout]
          constructor
          · intro _
            exact ⟨c, session, rfl, rfl, hv⟩
          · intro _
            simp
        · intro hno
          exact absurd ⟨c, session, rfl, rfl, hv⟩ hno
      · have hvf : cpn_caps_verify H c session.cap remote_key CPN_CAP_RIGHT_EXEC = false :=
          Bool.eq_false_iff.mpr hv
        have hout : cpn_proto_handle_session H sessions remote_key identifier (some c)
            = ⟨[ProtoEvent.sendResult (-1)], sessions⟩ := by
          simp only [cpn_proto_handle_session, hf]
          rw [hvf]
          rfl
        refine ⟨?_, ?_, fun _ => hout⟩
        · rw [hout]
          constructor
          · intro hmem
            exact absurd hmem (by simp)
          · rintro ⟨c₂, session₂, hc, hfind, hver⟩
            have hcc : c₂ = c := (Option.some.inj hc).symm
            have hss : session₂ = session := (Option.some.inj hfind).symm
            rw [hcc, hss] at hver
            exact absurd hver hv
        · rintro ⟨c₂, session₂, hc, hfind, hver⟩
          have hcc : c₂ = c := (Option.some.inj hc).symm
          have hss : session₂ = session := (Option.some.inj hfind).symm
          rw [hcc, hss] at hver
          exact absurd hver hv

theorem cpn_proto_handle_session_spec_witness :
    ∃ s rest, cpn_sessions_remove [⟨7, rootCap0⟩] 7 = some (s, rest)
      ∧ cpn_proto_handle_session H₀ [⟨7, rootCap0⟩] (tailIdentity refCap1) 7
            (some refCap1)
          = ⟨[ProtoEvent.sendResult 0, ProtoEvent.runPlugin], rest⟩ :=
  (cpn_proto_handle_session_spec H₀ [⟨7, rootCap0⟩] (tailIdentity refCap1) 7
      (some refCap1)).2.1
    ⟨refCap1, ⟨7, rootCap0⟩, rfl, by decide, by decide⟩

/-- `PACKAGE_LENGTH` of the sd channel translation unit: fixed block
size on the wire. -/
def PACKAGE_LENGTH : Nat := 512

/-- Ideal functional model of libsodium `crypto_secretbox_easy`
(external code): the 16-byte MAC slot records the key and the nonce so
that opening authenticates exactly the key/nonce pair used to seal. -/
def secretbox_easy (key nonce : Nat) (m : List Nat) : List Nat :=
  key :: nonce :: (List.replicate 14 0 ++ m)

/-- Ideal functional model of libsodium `crypto_secretbox_open_easy`
(external code): succeeds exactly on blocks sealed under the same key
and nonce. -/
def secretbox_open_easy (key nonce : Nat) (c : List Nat) : Option (List Nat) :=
  match c with
  | k :: n :: rest =>
      if k = key ∧ n = nonce ∧ rest.take 14 = List.replicate 14 0 then
        some (rest.drop 14)
      else none
  | _ => none

/-- The `memset`/`memcpy` zero padding of a block payload up to the
plaintext capacity `PACKAGE_LENGTH - MACBYTES = 496`. -/
def padBlock (l : List Nat) : List Nat :=
  l ++ List.replicate (496 - l.length) 0

/-- The continuation of the `sd_channel_write_data` loop once the length
prefix is consumed: full 496-byte chunks, each sealed under the local
nonce, which steps by two per block. -/
def sd_channel_write_rest (key nonce : Nat) (rem : List Nat) : List (List Nat) :=
  if h : rem = [] then []
  else
    secretbox_easy key nonce (padBlock (rem.take 496))
      :: sd_channel_write_rest key (nonce + 2) (rem.drop 496)
termination_by rem.length
decreasing_by
  simp only [List.length_drop]
  have := List.length_pos.mpr h
  omega

/-- `sd_channel_write_data` (sd channel translation unit) in symmetric
mode: block 0 carries the 4-byte big-endian payload length and up to 492
payload bytes; each block is zero-padded to 496 bytes, sealed with
`crypto_secretbox_easy`, and the local nonce is incremented twice. -/
def sd_channel_write_data (key nonce : Nat) (data : List Nat) : List (List Nat) :=
  secretbox_easy key nonce (padBlock (be32 data.length ++ data.take 492))
    :: sd_channel_write_rest key (nonce + 2) (data.drop 492)

/-- The continuation of the `sd_channel_receive_data` loop: while payload
remains, open the next block under the remote nonce (stepping by two) and
copy `min(remaining, 496)` bytes. -/
def sd_channel_receive_rest (key nonce : Nat) (pkgRem : Nat) :
    List (List Nat) → Option (List Nat)
  | blocks =>
    if pkgRem = 0 then some []
    else
      match blocks with
      | [] => none
      | b :: bs =>
          match secretbox_open_easy key nonce b with
          | none => none
          | some pt =>
              match sd_channel_receive_rest key (nonce + 2)
                  (pkgRem - min pkgRem 496) bs with
              | some tail => some (pt.take (min pkgRem 496) ++ tail)
              | none => none

/-- `sd_channel_receive_data` (sd channel translation unit) in symmetric
mode: open block 0, read the big-endian package length from its first
four bytes, reject lengths above `maxlen`, copy up to 492 payload bytes
and continue block-wise. -/
def sd_channel_receive_data (key nonce : Nat) (maxlen : Nat)
    (blocks : List (List Nat)) : Option (List Nat) :=
  match blocks with
  | [] => none
  | b :: bs =>
      match secretbox_open_easy key nonce b with
      | none => none
      | some pt =>
          if be32dec (pt.take 4) > maxlen then none
          else
            match sd_channel_receive_rest key (nonce + 2)
                (be32dec (pt.take 4) - min (be32dec (pt.take 4)) 492) bs with
            | some tail => some ((pt.drop 4).take (min (be32dec (pt.take 4)) 492) ++ tail)
            | none => none

theorem secretbox_roundtrip (key nonce : Nat) (m : List Nat) :
    secretbox_open_easy key nonce (secretbox_easy key nonce m) = some m := by
  have ht : (List.replicate 14 (0 : Nat) ++ m).take 14 = List.replicate 14 0 := by
    have h := List.take_left (List.replicate 14 (0 : Nat)) m
    rw [List.length_replicate] at h
    exact h
  have hd : (List.replicate 14 (0 : Nat) ++ m).drop 14 = m := by
    have h := List.drop_left (List.replicate 14 (0 : Nat)) m
    rw [List.length_replicate] at h
    exact h
  simp [secretbox_easy, secretbox_open_easy, ht, hd]

theorem secretbox_wrong_nonce (key nonce nonce₂ : Nat) (m : List Nat)
    (h : nonce₂ ≠ nonce) :
    secretbox_open_easy key nonce₂ (secretbox_easy key nonce m) = none := by
  simp only [secretbox_easy, secretbox_open_easy]
  rw [if_neg (fun hc => h hc.2.1.symm)]

theorem be32dec_be32 (n : Nat) (h : n < 2 ^ 32) : be32dec (be32 n) = n := by
  simp only [be32, be32dec]
  omega

theorem sd_channel_receive_rest_write_rest (key : Nat) :
    ∀ (n : Nat) (rem : List Nat), rem.length = n → ∀ nonce : Nat,
      sd_channel_receive_rest key nonce rem.length
          (sd_channel_write_rest key nonce rem) = some rem := by
  intro n
  induction n using Nat.strong_induction_on with
  | _ n ih =>
    intro rem hlen nonce
    by_cases hrem : rem = []
    · subst hrem
      rw [sd_channel_write_rest]
      rw [dif_pos rfl]
      rw [sd_channel_receive_rest]
      rfl
    · have hpos : 0 < rem.length := List.length_pos.mpr hrem
      have hopen := secretbox_roundtrip key nonce (padBlock (rem.take 496))
      have hlen2 : rem.length - min rem.length 496 = (rem.drop 496).length := by
        simp only [List.length_drop]
        omega
      have hrec := ih ((rem.drop 496).length)
        (by simp only [List.length_drop]; omega)
        (rem.drop 496) rfl (nonce + 2)
      rw [sd_channel_write_rest, dif_neg hrem, sd_channel_receive_rest]
      rw [if_neg (by omega)]
      simp only [hopen, hlen2, hrec]
      have htake : (padBlock (rem.take 496)).take (min rem.length 496)
          = rem.take 496 := by
        unfold padBlock
        rw [show min rem.length 496 = (rem.take 496).length from by
          rw [List.length_take]; omega]
        exact List.take_left _ _
      rw [htake, List.take_append_drop]

/-- C5: on a symmetric channel, receiving what was sent returns exactly
the bytes sent whenever the payload length is within the receiver's
bound, and decrypting under a nonce different from the one the data was
encrypted with fails. -/
theorem sd_channel_data_roundtrip (key nonce maxlen : Nat) (data : List Nat)
    (hmax : data.length ≤ maxlen) (h32 : data.length < 2 ^ 32) :
    sd_channel_receive_data key nonce maxlen
        (sd_channel_write_data key nonce data) = some data
      ∧ ∀ nonce₂, nonce₂ ≠ nonce →
          sd_channel_receive_data key nonce₂ maxlen
              (sd_channel_write_data key nonce data) = none := by
  constructor
  · have hopen := secretbox_roundtrip key nonce
      (padBlock (be32 data.length ++ data.take 492))
    have hpt4 : (padBlock (be32 data.length ++ data.take 492)).take 4
        = be32 data.length := by
      unfold padBlock
      rw [List.append_assoc]
      rw [show (4 : Nat) = (be32 data.length).length from rfl]
      exact List.take_left _ _
    have hdrop4 : (padBlock (be32 data.length ++ data.take 492)).drop 4
        = data.take 492
            ++ List.replicate (496 - (be32 data.length ++ data.take 492).length) 0 := by
      unfold padBlock
      rw [List.append_assoc]
      rw [show (4 : Nat) = (be32 data.length).length from rfl]
      exact List.drop_left _ _
    have htake2 : (data.take 492
          ++ List.replicate (496 - (be32 data.length ++ data.take 492).length) 0).take
            (min data.length 492) = data.take 492 := by
      rw [show min data.length 492 = (data.take 492).length from by
        rw [List.length_take]; omega]
      exact List.take_left _ _
    have hlen2 : data.length - min data.length 492 = (data.drop 492).length := by
      simp only [List.length_drop]
      omega
    have hrest := sd_channel_receive_rest_write_rest key ((data.drop 492).length)
      (data.drop 492) rfl (nonce + 2)
    unfold sd_channel_write_data sd_channel_receive_data
    simp only [hopen, hpt4, be32dec_be32 data.length h32]
    rw [if_neg (by omega)]
    simp only [hlen2, hrest, hdrop4, htake2]
    rw [List.take_append_drop]
  · intro nonce₂ hne
    unfold sd_channel_write_data sd_channel_receive_data
    simp only [secretbox_wrong_nonce key nonce nonce₂
      (padBlock (be32 data.length ++ data.take 492)) hne]

theorem sd_channel_data_roundtrip_witness :
    sd_channel_receive_data 5 0 100 (sd_channel_write_data 5 0 [1, 2, 3])
        = some [1, 2, 3]
      ∧ sd_channel_receive_data 5 7 100 (sd_channel_write_data 5 0 [1, 2, 3])
        = none := by
  obtain ⟨h1, h2⟩ := sd_channel_data_roundtrip 5 0 100 [1, 2, 3] (by decide) (by decide)
  exact ⟨h1, h2 7 (by decide)⟩

/-- `enum sd_channel_nonce`: `SD_CHANNEL_NONCE_CLIENT` is 0 (the value
the handshake initiator passes to `sd_channel_enable_encryption`),
`SD_CHANNEL_NONCE_SERVER` is 1 (the responder's value). -/
inductive SdChannelNonce where
  | client
  | server
deriving DecidableEq

/-- `sd_channel_enable_encryption` (sd channel translation unit): both
counters are zeroed, then `sodium_increment` bumps the remote counter
for the client and the local counter for the server; the result is the
pair `(local_nonce, remote_nonce)`. -/
def sd_channel_enable_encryption : SdChannelNonce → Nat × Nat
  | SdChannelNonce.client => (0, 0 + 1)
  | SdChannelNonce.server => (0 + 1, 0)

theorem sd_channel_write_rest_nonces (key : Nat) :
    ∀ (n : Nat) (rem : List Nat), rem.length = n →
      ∀ (nonce i : Nat) (block : List Nat),
      (sd_channel_write_rest key nonce rem)[i]? = some block →
      ∃ m, block = secretbox_easy key (nonce + 2 * i) m := by
  intro n
  induction n using Nat.strong_induction_on with
  | _ n ih =>
    intro rem hlen nonce i block hblock
    by_cases hrem : rem = []
    · rw [sd_channel_write_rest, dif_pos hrem] at hblock
      exact absurd hblock (by simp)
    · have hpos : 0 < rem.length := List.length_pos.mpr hrem
      rw [sd_channel_write_rest, dif_neg hrem] at hblock
      match i with
      | 0 =>
        simp only [List.getElem?_cons_zero] at hblock
        exact ⟨padBlock (rem.take 496),
          by rw [← Option.some.inj hblock, Nat.mul_zero, Nat.add_zero]⟩
      | Nat.succ j =>
        simp only [List.getElem?_cons_succ] at hblock
        obtain ⟨m, hm⟩ := ih ((rem.drop 496).length)
          (by simp only [List.length_drop]; omega)
          (rem.drop 496) rfl (nonce + 2) j block hblock
        refine ⟨m, ?_⟩
        rw [hm]
        congr 1
        omega

/-- C7: after the handshake the initiator channel holds
`(local, remote) = (0, 1)` and the responder `(1, 0)`; every block the
writer seals uses nonce `local + 2·i`, the reader opens each block under
its remote counter and recurses with it stepped by two, and the even
initiator-side send nonces never meet the odd responder-side ones. -/
theorem sd_channel_nonce_policy :
    sd_channel_enable_encryption SdChannelNonce.client = (0, 1)
      ∧ sd_channel_enable_encryption SdChannelNonce.server = (1, 0)
      ∧ (∀ key nonce (data : List Nat) (i : Nat) (block : List Nat),
          (sd_channel_write_data key nonce data)[i]? = some block →
          ∃ m, block = secretbox_easy key (nonce + 2 * i) m)
      ∧ (∀ key nonce pkgRem (b : List Nat) bs out, pkgRem ≠ 0 →
          sd_channel_receive_rest key nonce pkgRem (b :: bs) = some out →
          ∃ pt tail, secretbox_open_easy key nonce b = some pt
            ∧ sd_channel_receive_rest key (nonce + 2) (pkgRem - min pkgRem 496) bs
                = some tail
            ∧ out = pt.take (min pkgRem 496) ++ tail)
      ∧ (∀ i j : Nat, 0 + 2 * i ≠ 1 + 2 * j) := by
  refine ⟨rfl, rfl, ?_, ?_, by intro i j; omega⟩
  · intro key nonce data i block hblock
    unfold sd_channel_write_data at hblock
    match i with
    | 0 =>
      simp only [List.getElem?_cons_zero] at hblock
      exact ⟨padBlock (be32 data.length ++ data.take 492),
        by rw [← Option.some.inj hblock, Nat.mul_zero, Nat.add_zero]⟩
    | Nat.succ j =>
      simp only [List.getElem?_cons_succ] at hblock
      obtain ⟨m, hm⟩ := sd_channel_write_rest_nonces key
        ((data.drop 492).length) (data.drop 492) rfl (nonce + 2) j block hblock
      refine ⟨m, ?_⟩
      rw [hm]
      congr 1
      omega
  · intro key nonce pkgRem b bs out hne hrec
    rw [sd_channel_receive_rest] at hrec
    rw [if_neg hne] at hrec
    cases hopen : secretbox_open_easy key nonce b with
    | none =>
      rw [hopen] at hrec
      exact absurd hrec (by simp)
    | some pt =>
      rw [hopen] at hrec
      cases htail : sd_channel_receive_rest key (nonce + 2)
          (pkgRem - min pkgRem 496) bs with
      | none =>
        rw [htail] at hrec
        exact absurd hrec (by simp)
      | some tail =>
        rw [htail] at hrec
        exact ⟨pt, tail, rfl, rfl, (Option.some.inj hrec).symm⟩

theorem sd_channel_nonce_policy_witness :
    ∃ m, secretbox_easy 9 0
          (padBlock (be32 ([1, 2, 3] : List Nat).length
            ++ ([1, 2, 3] : List Nat).take 492))
        = secretbox_easy 9 (0 + 2 * 0) m :=
  sd_channel_nonce_policy.2.2.1 9 0 [1, 2, 3] 0 _ (by simp [sd_channel_write_data])

/-- The key derivation of `sd_proto_initiate_encryption` (sd proto
translation unit): hash the X25519 scalar product, then the local
ephemeral public key, then the received one.  Keys are abstracted as
numbers; `H` is the external `crypto_generichash`, `scalarmult` the
external `crypto_scalarmult` applied to a secret key and a public key. -/
def sd_proto_initiate_encryption_key (H : List Nat → List Nat)
    (scalarmult : Nat → Nat → Nat) (esk localPk remotePk : Nat) : List Nat :=
  H ([scalarmult esk remotePk] ++ [localPk] ++ [remotePk])

/-- The key derivation of `sd_proto_await_encryption` (sd proto
translation unit): hash the scalar product, then the received ephemeral
public key, then the local one. -/
def sd_proto_await_encryption_key (H : List Nat → List Nat)
    (scalarmult : Nat → Nat → Nat) (esk remotePk localPk : Nat) : List Nat :=
  H ([scalarmult esk remotePk] ++ [remotePk] ++ [localPk])

/-- C6: on a completed handshake — the initiator holding ephemeral
secret `eskI`, the responder `eskR`, each having received the other's
ephemeral public key — both sides derive the same key
`H(q || epk_initiator || epk_responder)`, the initiator's ephemeral
public first, given the Diffie-Hellman property of `scalarmult`. -/
theorem sd_proto_encryption_shared_key (H : List Nat → List Nat)
    (scalarmult : Nat → Nat → Nat) (pub : Nat → Nat) (eskI eskR : Nat)
    (hdh : scalarmult eskI (pub eskR) = scalarmult eskR (pub eskI)) :
    sd_proto_initiate_encryption_key H scalarmult eskI (pub eskI) (pub eskR)
        = sd_proto_await_encryption_key H scalarmult eskR (pub eskI) (pub eskR)
      ∧ sd_proto_initiate_encryption_key H scalarmult eskI (pub eskI) (pub eskR)
        = H ([scalarmult eskI (pub eskR)] ++ [pub eskI] ++ [pub eskR]) := by
  constructor
  · unfold sd_proto_initiate_encryption_key sd_proto_await_encryption_key
    rw [hdh]
  · rfl

theorem sd_proto_encryption_shared_key_witness :
    sd_proto_initiate_encryption_key (fun l => l) (fun a b => a * b) 2 2 3
        = sd_proto_await_encryption_key (fun l => l) (fun a b => a * b) 3 2 3 :=
  (sd_proto_encryption_shared_key (fun l => l) (fun a b => a * b)
    (fun x => x) 2 3 (by decide)).1

/-- `is_whitelisted` (sd proto translation unit): an empty whitelist
accepts every key; otherwise the key must equal one of the listed
entries. -/
def is_whitelisted (key : List Nat) (whitelist : List (List Nat)) : Bool :=
  if whitelist.length = 0 then true
  else whitelist.contains key

/-- The access-control guard of `sd_proto_answer_query` (sd proto
translation unit): after the handshake the query is answered exactly
when the remote key passes `is_whitelisted`; the service description is
abstracted as the bytes it would send. -/
def sd_proto_answer_query (remote : List Nat) (whitelist : List (List Nat))
    (description : List Nat) : Option (List Nat) :=
  if is_whitelisted remote whitelist then some description else none

/-- C10: an empty whitelist accepts every remote key, so a server
without an ACL answers the query for any authenticated identity, while a
non-empty whitelist accepts exactly the keys it contains. -/
theorem is_whitelisted_spec :
    (∀ key : List Nat, is_whitelisted key [] = true)
      ∧ (∀ (key : List Nat) whitelist, whitelist ≠ [] →
          (is_whitelisted key whitelist = true ↔ key ∈ whitelist))
      ∧ (∀ (remote : List Nat) whitelist description,
          is_whitelisted remote whitelist = true
            ↔ sd_proto_answer_query remote whitelist description
                = some description) := by
  refine ⟨fun key => rfl, ?_, ?_⟩
  · intro key whitelist hne
    unfold is_whitelisted
    rw [if_neg (fun h0 => hne (List.length_eq_zero.mp h0))]
    simp
  · intro remote whitelist description
    unfold sd_proto_answer_query
    by_cases hw : is_whitelisted remote whitelist = true
    · rw [if_pos hw]
      simp [hw]
    · rw [if_neg hw]
      simp [hw]

theorem is_whitelisted_spec_witness :
    is_whitelisted [1, 2] [[1, 2], [3, 4]] = true :=
  (is_whitelisted_spec.2.1 [1, 2] [[1, 2], [3, 4]] (by decide)).mpr (by decide)
